import Mathlib

/-!
Verification of the deopenchat accountable-metering pipeline.

This file gives a shallow embedding of the core of the deopenchat gateway
and its zero-knowledge circuit:

* the claim codec and signed-message codec (`common/src/lib.rs`),
* the metadata journal (`deopenchat-gateway/src/metadata.rs`),
* the confirm HTTP handler and the settlement loop's journal decoding
  (`deopenchat-gateway/src/main.rs`),
* the zk guest program (`deopenchat-zkcircuit/guest/src/main.rs`).

Machine integers (`u32`, `u64`) are modelled as `Nat` with explicit
reduction modulo `2 ^ 32` / `2 ^ 64` wherever the Rust code performs
wrapping arithmetic.  On-disk content-addressed tables are modelled as
association lists; the per-key lock registry is modelled as the list of
known keys.  Fallible operations return a success flag together with the
post state (failure leaves the relevant tables untouched, exactly as the
`ensure!`/`?` control flow does in the source).  Ed25519 signature
verification is kept abstract as a boolean-valued parameter, matching the
way the source treats `ed25519_dalek` as an opaque verifier.
-/

def U32 : Nat := 2 ^ 32
def U64 : Nat := 2 ^ 64

abbrev PublicKey := List Nat

/-- Big-endian 4-byte encoding of a `u32` value (`to_be_bytes`). -/
def be4 (n : Nat) : List Nat :=
  [n / 2 ^ 24 % 256, n / 2 ^ 16 % 256, n / 2 ^ 8 % 256, n % 256]

/-- Big-endian 8-byte encoding of a `u64` value (`to_be_bytes`). -/
def be8 (n : Nat) : List Nat :=
  [n / 2 ^ 56 % 256, n / 2 ^ 48 % 256, n / 2 ^ 40 % 256, n / 2 ^ 32 % 256,
   n / 2 ^ 24 % 256, n / 2 ^ 16 % 256, n / 2 ^ 8 % 256, n % 256]

/-- `RequestMsg` from `common/src/lib.rs`. -/
structure RequestMsg where
  seq : Nat
  deriving DecidableEq, Repr

/-- `Request`: a request message plus its detached signature. -/
structure Request where
  msg : RequestMsg
  signature : List Nat
  deriving DecidableEq, Repr

/-- `ConfirmMsg` from `common/src/lib.rs`. -/
structure ConfirmMsg where
  seq : Nat
  input_tokens : Nat
  resp_tokens : Nat
  deriving DecidableEq, Repr

/-- `Confirm`: a confirm message plus its detached signature. -/
structure Confirm where
  msg : ConfirmMsg
  signature : List Nat
  deriving DecidableEq, Repr

/-- `Round` as fed to the zk guest: one signed request/confirm pair. -/
structure Round where
  request : Request
  confirm : Confirm
  deriving DecidableEq, Repr

/-- `Input`: the prover input mapping.  The `HashMap` is modelled as an
association list; its order stands for one (unspecified) iteration order. -/
structure Input where
  rounds : List (PublicKey × List Round)
  deriving DecidableEq, Repr

/-- `Claim` from `common/src/lib.rs`. -/
structure Claim where
  pk : PublicKey
  start_seq : Nat
  rounds : Nat
  tokens_consumed : Nat
  deriving DecidableEq, Repr

/-- Canonical 4-byte encoding of a `RequestMsg` (`From<RequestMsg> for [u8; 4]`). -/
def requestMsgBytes (m : RequestMsg) : List Nat := be4 m.seq

/-- Canonical 12-byte encoding of a `ConfirmMsg` (`From<ConfirmMsg> for [u8; 12]`). -/
def confirmMsgBytes (m : ConfirmMsg) : List Nat :=
  be4 m.seq ++ be4 m.input_tokens ++ be4 m.resp_tokens

/-- 48-byte encoding of a `Claim` (`From<Claim> for [u8; CLAIM_SIZE]`):
`pk (32) / start_seq be (4) / rounds be (4) / tokens_consumed be (8)`. -/
def claimBytes (c : Claim) : List Nat :=
  c.pk ++ be4 c.start_seq ++ be4 c.rounds ++ be8 c.tokens_consumed

theorem be4_length (n : Nat) : (be4 n).length = 4 := rfl

theorem be8_length (n : Nat) : (be8 n).length = 8 := rfl

theorem claimBytes_length (c : Claim) (h : c.pk.length = 32) :
    (claimBytes c).length = 48 := by
  simp [claimBytes, be4_length, be8_length, h]

/-! ### Association-list maps

The `cacache` content-addressed tables are modelled as association lists.
`updA` models `cacache::write` (replace-or-create), `removeA` models
`cacache::remove`, `lookupA` models `cacache::read` (with `none` standing
for `EntryNotFound`). -/

section AssocMap

variable {κ : Type} {α : Type} [DecidableEq κ]

/-- First-match lookup in an association list. -/
def lookupA (k : κ) : List (κ × α) → Option α
  | [] => none
  | p :: t => if p.1 = k then some p.2 else lookupA k t

/-- Write-by-key: replace the first entry with key `k`, or append a new one. -/
def updA (k : κ) (v : α) : List (κ × α) → List (κ × α)
  | [] => [(k, v)]
  | p :: t => if p.1 = k then (k, v) :: t else p :: updA k v t

/-- Remove-by-key: drop every entry with key `k`. -/
def removeA (k : κ) (l : List (κ × α)) : List (κ × α) :=
  l.filter (fun p => p.1 ≠ k)

@[simp] theorem lookupA_nil (k : κ) : lookupA k ([] : List (κ × α)) = none := rfl

theorem lookupA_updA_self (k : κ) (v : α) (l : List (κ × α)) :
    lookupA k (updA k v l) = some v := by
  induction l with
  | nil => simp [lookupA, updA]
  | cons p t ih =>
      by_cases h : p.1 = k
      · simp [updA, h, lookupA]
      · simp [updA, h, lookupA, ih]

theorem lookupA_updA_ne (k k' : κ) (v : α) (l : List (κ × α)) (h : k' ≠ k) :
    lookupA k' (updA k v l) = lookupA k' l := by
  have hk : ¬(k = k') := fun e => h e.symm
  induction l with
  | nil => simp [lookupA, updA, hk]
  | cons p t ih =>
      by_cases hp : p.1 = k
      · have hp' : ¬(p.1 = k') := fun e => h (e.symm.trans hp)
        simp [updA, hp, lookupA, hk, hp']
      · simp [updA, hp, lookupA, ih]

theorem updA_self (k : κ) (v : α) (l : List (κ × α))
    (h : lookupA k l = some v) : updA k v l = l := by
  induction l with
  | nil => simp [lookupA] at h
  | cons p t ih =>
      by_cases hp : p.1 = k
      · simp [lookupA, hp] at h
        cases p with
        | mk a b => simp_all [updA]
      · simp [lookupA, hp] at h
        simp [updA, hp, ih h]

theorem lookupA_removeA (k k' : κ) (l : List (κ × α)) :
    lookupA k' (removeA k l) = if k' = k then none else lookupA k' l := by
  induction l with
  | nil => simp [removeA, lookupA]
  | cons p t ih =>
      by_cases hp : p.1 = k
      · have hstep : removeA k (p :: t) = removeA k t := by
          simp [removeA, List.filter_cons, hp]
        rw [hstep, ih]
        by_cases hk : k' = k
        · simp [hk]
        · have hp' : ¬(p.1 = k') := fun e => hk (e.symm.trans hp)
          simp [hk, lookupA, hp']
      · have hstep : removeA k (p :: t) = p :: removeA k t := by
          simp [removeA, List.filter_cons, hp]
        rw [hstep]
        by_cases hp' : p.1 = k'
        · have hk : ¬(k' = k) := fun e => hp (hp'.trans e)
          simp [lookupA, hp', hk]
        · simp [lookupA, hp', ih]

theorem lookupA_removeA_self (k : κ) (l : List (κ × α)) :
    lookupA k (removeA k l) = none := by
  simp [lookupA_removeA]

theorem lookupA_removeA_ne (k k' : κ) (l : List (κ × α)) (h : k' ≠ k) :
    lookupA k' (removeA k l) = lookupA k' l := by
  simp [lookupA_removeA, h]

end AssocMap

/-- Insert a key into the lock registry (`locks.entry(key).or_insert_with`). -/
def insertKey (k : PublicKey) (l : List PublicKey) : List PublicKey :=
  if k ∈ l then l else k :: l

/-- The half-open `u32` range `a..b` of Rust, as a list (empty when `b ≤ a`). -/
def rustRange (a b : Nat) : List Nat := List.range' a (b - a)

theorem mem_rustRange (a b q : Nat) : q ∈ rustRange a b ↔ a ≤ q ∧ q < b := by
  constructor
  · intro h
    rcases List.mem_range'.mp h with ⟨i, hi, rfl⟩
    omega
  · intro ⟨h1, h2⟩
    exact List.mem_range'.mpr ⟨q - a, by omega, by omega⟩

/-! ### Metadata journal (`deopenchat-gateway/src/metadata.rs`) -/

/-- `RoundState` from `metadata.rs`. -/
inductive RoundState where
  | Requested
  | WaitingConfirm
  | Completed
  deriving DecidableEq, Repr

/-- `PeerStatus` from `metadata.rs`. -/
structure PeerStatus where
  seq : Nat
  commit_seq : Nat
  state : RoundState
  deriving DecidableEq, Repr

/-- The `usage` record of the backend completion response
(`CompletionUsage` of `async_openai`, restricted to the fields the
gateway reads). -/
structure Usage where
  prompt_tokens : Nat
  completion_tokens : Nat
  deriving DecidableEq, Repr

/-- The raw backend response, restricted to its optional `usage` field. -/
structure RawResponse where
  usage : Option Usage
  deriving DecidableEq, Repr

/-- `CompletionsReq` from `common/src/lib.rs`; the opaque `raw_req`
payload is modelled by a `Nat` tag. -/
structure CompletionsReq where
  pk : PublicKey
  raw_req : Nat
  request : Request
  deriving DecidableEq, Repr

/-- `CompletionsResp` from `common/src/lib.rs`. -/
structure CompletionsResp where
  raw_response : RawResponse
  deriving DecidableEq, Repr

/-- `ConfirmReq` from `common/src/lib.rs`. -/
structure ConfirmReq where
  pk : PublicKey
  confirm : Confirm
  deriving DecidableEq, Repr

/-- `RoundData` from `metadata.rs`. -/
structure RoundData where
  seq : Nat
  req : CompletionsReq
  resp : CompletionsResp
  confirm_msg : Option ConfirmReq
  deriving DecidableEq, Repr

/-- The whole journal state: the `status/` table, the `history/` table
(keyed by `(pk, seq)`), and the in-memory per-key lock registry. -/
structure JState where
  status : List (PublicKey × PeerStatus)
  history : List ((PublicKey × Nat) × RoundData)
  registry : List PublicKey
  deriving DecidableEq, Repr

def initState : JState := ⟨[], [], []⟩

namespace MetadataCache

/-- `MetadataCache::req`.  Success flag plus post state; the lock registry
entry is created before any check, exactly as `locks.entry(key).or_insert_with`
runs before the status read. -/
def req (s : JState) (r : CompletionsReq) : Bool × JState :=
  let s1 : JState := { s with registry := insertKey r.pk s.registry }
  match lookupA r.pk s1.status with
  | none =>
      if r.request.msg.seq = 1 then
        (true, { s1 with status := updA r.pk ⟨1, 0, RoundState.Requested⟩ s1.status })
      else
        (false, s1)
  | some curr =>
      if curr.state = RoundState.Completed ∧ r.request.msg.seq = (curr.seq + 1) % U32 then
        let ns := updA r.pk ⟨r.request.msg.seq, curr.commit_seq, RoundState.Requested⟩ s1.status
        (true, { s1 with status := ns })
      else
        (false, s1)

/-- `MetadataCache::resp`. -/
def resp (s : JState) (r : CompletionsReq) (rp : CompletionsResp) : Bool × JState :=
  let s1 : JState := { s with registry := insertKey r.pk s.registry }
  match lookupA r.pk s1.status with
  | none => (false, s1)
  | some curr =>
      if curr.state = RoundState.Requested ∧ curr.seq = r.request.msg.seq then
        let rd : RoundData := ⟨r.request.msg.seq, r, rp, none⟩
        let s2 : JState := { s1 with history := updA (r.pk, curr.seq) rd s1.history }
        let ns := updA r.pk ⟨curr.seq, curr.commit_seq, RoundState.WaitingConfirm⟩ s2.status
        (true, { s2 with status := ns })
      else
        (false, s1)

/-- `MetadataCache::confirm`. -/
def confirm (s : JState) (c : ConfirmReq) : Bool × JState :=
  let s1 : JState := { s with registry := insertKey c.pk s.registry }
  match lookupA c.pk s1.status with
  | none => (false, s1)
  | some curr =>
      if curr.state = RoundState.WaitingConfirm ∧ curr.seq = c.confirm.msg.seq then
        match lookupA (c.pk, c.confirm.msg.seq) s1.history with
        | none => (false, s1)
        | some rd =>
            let nh := updA (c.pk, curr.seq) { rd with confirm_msg := some c } s1.history
            let s2 : JState := { s1 with history := nh }
            let ns := updA c.pk ⟨curr.seq, curr.commit_seq, RoundState.Completed⟩ s2.status
            (true, { s2 with status := ns })
      else
        (false, s1)

/-- `MetadataCache::load_round`.  Returns the round (if on disk) and the
post state: the lock registry entry is created even by this read. -/
def load_round (s : JState) (pk : PublicKey) (seq : Nat) : Option RoundData × JState :=
  let s1 : JState := { s with registry := insertKey pk s.registry }
  (lookupA (pk, seq) s1.history, s1)

/-- `MetadataCache::load_status`.  `none` is a read error; `some none`
means the key is not in the lock registry. -/
def load_status (s : JState) (pk : PublicKey) : Option (Option PeerStatus) :=
  if pk ∈ s.registry then
    match lookupA pk s.status with
    | none => none
    | some st => some (some st)
  else
    some none

/-- The per-key history reads of `load_all_history`
(`for seq in s.commit_seq + 1..s.seq { cacache::read(...)? }`). -/
def readRounds (s : JState) (pk : PublicKey) : List Nat → Option (List RoundData)
  | [] => some []
  | q :: qs =>
      match lookupA (pk, q) s.history with
      | none => none
      | some rd =>
          match readRounds s pk qs with
          | none => none
          | some rds => some (rd :: rds)

/-- The registry loop of `MetadataCache::load_all_history`. -/
def load_all_go (s : JState) : List PublicKey → Option (List (PublicKey × List RoundData))
  | [] => some []
  | k :: ks =>
      match lookupA k s.status with
      | none => none
      | some st =>
          match readRounds s k (rustRange ((st.commit_seq + 1) % U32) st.seq) with
          | none => none
          | some rds =>
              match load_all_go s ks with
              | none => none
              | some rest => if rds.isEmpty then some rest else some ((k, rds) :: rest)

/-- `MetadataCache::load_all_history`. -/
def load_all_history (s : JState) : Option (List (PublicKey × List RoundData)) :=
  load_all_go s s.registry

/-- The history deletions of one claim in `MetadataCache::commit`
(`cacache::remove` of a missing key is an error that aborts mid-loop). -/
def removeRounds (s : JState) (pk : PublicKey) : List Nat → Bool × JState
  | [] => (true, s)
  | q :: qs =>
      match lookupA (pk, q) s.history with
      | none => (false, s)
      | some _ => removeRounds { s with history := removeA (pk, q) s.history } pk qs

/-- Processing of a single claim inside `MetadataCache::commit`: lock
lookup, status read, the two `ensure!` guards, the status write, then the
history deletions. -/
def commitClaim (s : JState) (c : Claim) : Bool × JState :=
  if c.pk ∈ s.registry then
    match lookupA c.pk s.status with
    | none => (false, s)
    | some st =>
        if (st.commit_seq + 1) % U32 = c.start_seq ∧
            (st.commit_seq + c.rounds) % U32 ≤ st.seq then
          let ns := updA c.pk ⟨st.seq, (st.commit_seq + c.rounds) % U32, st.state⟩ s.status
          let s1 : JState := { s with status := ns }
          removeRounds s1 c.pk (rustRange c.start_seq ((c.start_seq + c.rounds) % U32))
        else
          (false, s)
  else
    (false, s)

/-- The claim loop of `MetadataCache::commit`: sequential, aborting on the
first failure and keeping the effects of the claims already processed. -/
def commitGo (s : JState) : List Claim → Bool × JState
  | [] => (true, s)
  | c :: cs =>
      match commitClaim s c with
      | (true, s1) => commitGo s1 cs
      | (false, s1) => (false, s1)

/-- `MetadataCache::commit`. -/
def commit (s : JState) (claims : List Claim) : Bool × JState :=
  commitGo s claims

end MetadataCache

/-! ### Settlement-loop journal decoding (`main.rs`, `commit_handler`) -/

/-- The on-chain claim record built by the settlement loop
(`Deopenchat::Claim`). -/
structure DClaim where
  clientPk : List Nat
  seq : Nat
  rounds : Nat
  numberTokensConsumed : Nat
  deriving DecidableEq, Repr

/-- Big-endian value of a byte list (`u32::from_be_bytes` / `u64::from_be_bytes`). -/
def beNat (l : List Nat) : Nat := l.foldl (fun a b => a * 256 + b) 0

/-- Decode one 48-byte frame the way `commit_handler` does:
`pk = buf[..32]`, `seq = buf[32..36]`, `rounds = buf[36..40]`,
`tokens = buf[40..48]`. -/
def decodeClaim48 (buf : List Nat) : DClaim :=
  ⟨buf.take 32, beNat ((buf.drop 32).take 4), beNat ((buf.drop 36).take 4),
   beNat ((buf.drop 40).take 8)⟩

/-- The decoding loop of `commit_handler`, exactly as written in the source:

`while buff.len() > 0 { let (claim_buf, r) = journal.split_at(48); buff = r; push(decode(claim_buf)); }`

Note that the loop splits the original `journal` and never advances past
its first 48 bytes.  The loop is executed with explicit fuel: `none`
means the given number of iterations did not finish the loop (when this
holds for every fuel the loop diverges); the `split_at` panic on journals
shorter than 48 bytes is also `none`. -/
def commitDecodeLoop (journal : List Nat) : List Nat → List DClaim → Nat → Option (List DClaim)
  | _, _, 0 => none
  | buff, claims, fuel + 1 =>
      if buff.length > 0 then
        if 48 ≤ journal.length then
          commitDecodeLoop journal (journal.drop 48)
            (claims ++ [decodeClaim48 (journal.take 48)]) fuel
        else none
      else some claims

/-- Modelled from the spec: the intended decoding with an advancing
cursor, reading frame `i` of `n` from bytes `48*i .. 48*(i+1)`. -/
def specDecodeFrames (l : List Nat) : Nat → List DClaim
  | 0 => []
  | n + 1 => decodeClaim48 (l.take 48) :: specDecodeFrames (l.drop 48) n

/-- A two-frame journal: frame 0 is all zeroes, frame 1 ends in a 1 byte
(so it decodes to a different claim). -/
def j96 : List Nat := List.replicate 48 0 ++ (List.replicate 47 0 ++ [1])

theorem commitDecodeLoop_j96_stuck (acc : List DClaim) (fuel : Nat) :
    commitDecodeLoop j96 (j96.drop 48) acc fuel = none := by
  induction fuel generalizing acc with
  | zero => rfl
  | succ n ih =>
      rw [commitDecodeLoop]
      have h1 : 0 < (j96.drop 48).length := by decide
      have h2 : 48 ≤ j96.length := by decide
      simp only [h1, h2, if_pos, gt_iff_lt]
      exact ih _

/-- C1: the settlement loop's journal decoding is claimed to split the
buffer into consecutive 48-byte frames, the `i`-th on-chain claim coming
from bytes `48*i .. 48*(i+1)`.  The code instead re-splits the original
buffer every iteration, so on the two-frame journal `j96` the loop never
terminates (it returns no claim list for any amount of fuel), while the
intended cursor-advancing decoding yields the two distinct frames. -/
theorem commit_journal_decode_diverges :
    (∀ fuel : Nat, commitDecodeLoop j96 j96 [] fuel = none) ∧
    specDecodeFrames j96 2 =
      [⟨List.replicate 32 0, 0, 0, 0⟩, ⟨List.replicate 32 0, 0, 0, 1⟩] ∧
    (⟨List.replicate 32 0, 0, 0, 1⟩ : DClaim) ≠ ⟨List.replicate 32 0, 0, 0, 0⟩ := by
  refine ⟨?_, by decide, by decide⟩
  intro fuel
  cases fuel with
  | zero => rfl
  | succ n =>
      rw [commitDecodeLoop]
      have h1 : 0 < j96.length := by decide
      have h2 : 48 ≤ j96.length := by decide
      simp only [h1, h2, if_pos, gt_iff_lt]
      exact commitDecodeLoop_j96_stuck _ _

/-! ### ZK guest program (`deopenchat-zkcircuit/guest/src/main.rs`)

Ed25519 is abstracted: `V pk msg sig` is the result of
`VerifyingKey::from_bytes(pk).verify(msg, sig).is_ok()` and
`pkValid pk` the success of `VerifyingKey::from_bytes(pk)`;
`Signature::from_slice` additionally requires a 64-byte signature. -/

/-- The per-round loop of the guest: sequence assertions, signature
verifications, and the wrapping `u64` token accumulation.  `none` is a
guest abort (failed `assert!`/`expect`). -/
def guestRounds (V : PublicKey → List Nat → List Nat → Bool) (pk : PublicKey) :
    List Round → Nat → Nat → Option Nat
  | [], _, tok => some tok
  | r :: rs, curr, tok =>
      if r.request.msg.seq = curr ∧ r.confirm.msg.seq = curr ∧
          r.request.signature.length = 64 ∧
          V pk (requestMsgBytes r.request.msg) r.request.signature = true ∧
          r.confirm.signature.length = 64 ∧
          V pk (confirmMsgBytes r.confirm.msg) r.confirm.signature = true then
        guestRounds V pk rs ((curr + 1) % U32)
          (((tok + r.confirm.msg.input_tokens) % U64 + r.confirm.msg.resp_tokens) % U64)
      else
        none

/-- The per-client body of the guest main loop: `rounds[0]` indexing
(abort on empty list), verifying-key construction, the round loop, and
the emitted `Claim` (with `rounds.len() as u32`). -/
def guestClient (V : PublicKey → List Nat → List Nat → Bool)
    (pkValid : PublicKey → Bool) (pk : PublicKey) (rounds : List Round) : Option Claim :=
  match rounds with
  | [] => none
  | r0 :: _ =>
      if pkValid pk = true then
        match guestRounds V pk rounds r0.request.msg.seq 0 with
        | none => none
        | some tok => some ⟨pk, r0.request.msg.seq, rounds.length % U32, tok⟩
      else
        none

/-- `main` of the guest program: the committed journal is the
concatenation of the per-client 48-byte claim encodings; any abort
commits nothing. -/
def guestMain (V : PublicKey → List Nat → List Nat → Bool)
    (pkValid : PublicKey → Bool) : List (PublicKey × List Round) → Option (List Nat)
  | [] => some []
  | (pk, rounds) :: rest =>
      match guestClient V pkValid pk rounds with
      | none => none
      | some c =>
          match guestMain V pkValid rest with
          | none => none
          | some j => some (claimBytes c ++ j)

/-- Total tokens of a round list: `Σ (input_tokens + resp_tokens)`. -/
def sumTokens (rounds : List Round) : Nat :=
  (rounds.map (fun r => r.confirm.msg.input_tokens + r.confirm.msg.resp_tokens)).sum

/-- The first round's request sequence number (`rounds[0].request.msg.seq`). -/
def startSeq (rounds : List Round) : Nat :=
  match rounds with
  | [] => 0
  | r :: _ => r.request.msg.seq

/-- The claim the spec asserts for one client: start at the first round's
seq, `rounds` = list length, tokens = plain (unwrapped) sum. -/
def clientClaim (p : PublicKey × List Round) : Claim :=
  ⟨p.1, startSeq p.2, p.2.length, sumTokens p.2⟩

/-- The journal the spec asserts: concatenation of the per-client claim
encodings in iteration order. -/
def guestJournal : List (PublicKey × List Round) → List Nat
  | [] => []
  | p :: rest => claimBytes (clientClaim p) ++ guestJournal rest

/-- The conditions of claim C2 on one client's entry: non-empty round
list, consecutive (u32) request sequence numbers, per-round equality of
request and confirm seq, and valid signatures (64 bytes and accepted by
the Ed25519 verifier) under a well-formed public key. -/
@[reducible]
def GuestCore (V : PublicKey → List Nat → List Nat → Bool)
    (pkValid : PublicKey → Bool) (pk : PublicKey) (rounds : List Round) : Prop :=
  rounds ≠ [] ∧ pkValid pk = true ∧
  List.Chain' (fun a b => b.request.msg.seq = (a.request.msg.seq + 1) % U32) rounds ∧
  ∀ r ∈ rounds, r.confirm.msg.seq = r.request.msg.seq ∧
    r.request.signature.length = 64 ∧
    V pk (requestMsgBytes r.request.msg) r.request.signature = true ∧
    r.confirm.signature.length = 64 ∧
    V pk (confirmMsgBytes r.confirm.msg) r.confirm.signature = true

/-- The first-round seq matches the initial cursor (trivially true for
the empty list). -/
def headSeq (rounds : List Round) (curr : Nat) : Prop :=
  match rounds with
  | [] => True
  | r :: _ => r.request.msg.seq = curr

theorem guestRounds_ok (V : PublicKey → List Nat → List Nat → Bool) (pk : PublicKey) :
    ∀ (rounds : List Round) (curr tok : Nat), tok < U64 →
    (∀ r ∈ rounds, r.confirm.msg.seq = r.request.msg.seq ∧
      r.request.signature.length = 64 ∧
      V pk (requestMsgBytes r.request.msg) r.request.signature = true ∧
      r.confirm.signature.length = 64 ∧
      V pk (confirmMsgBytes r.confirm.msg) r.confirm.signature = true) →
    List.Chain' (fun a b => b.request.msg.seq = (a.request.msg.seq + 1) % U32) rounds →
    headSeq rounds curr →
    guestRounds V pk rounds curr tok = some ((tok + sumTokens rounds) % U64) := by
  intro rounds
  induction rounds with
  | nil =>
      intro curr tok htok _ _ _
      simp [guestRounds, sumTokens, Nat.mod_eq_of_lt htok]
  | cons r rs ih =>
      intro curr tok htok hchecks hchain hhead
      have hr := hchecks r (List.mem_cons_self r rs)
      have hrseq : r.request.msg.seq = curr := hhead
      have hcond : r.request.msg.seq = curr ∧ r.confirm.msg.seq = curr ∧
          r.request.signature.length = 64 ∧
          V pk (requestMsgBytes r.request.msg) r.request.signature = true ∧
          r.confirm.signature.length = 64 ∧
          V pk (confirmMsgBytes r.confirm.msg) r.confirm.signature = true := by
        refine ⟨hrseq, hr.1.trans hrseq, hr.2.1, hr.2.2.1, hr.2.2.2.1, hr.2.2.2.2⟩
      rw [guestRounds, if_pos hcond]
      have hhead' : headSeq rs ((curr + 1) % U32) := by
        cases rs with
        | nil => trivial
        | cons r1 rs' =>
            have := (List.chain'_cons.mp hchain).1
            simpa [headSeq, hrseq] using this
      have hchain' : List.Chain'
          (fun a b => b.request.msg.seq = (a.request.msg.seq + 1) % U32) rs :=
        hchain.tail
      have hchecks' : ∀ x ∈ rs, x.confirm.msg.seq = x.request.msg.seq ∧
          x.request.signature.length = 64 ∧
          V pk (requestMsgBytes x.request.msg) x.request.signature = true ∧
          x.confirm.signature.length = 64 ∧
          V pk (confirmMsgBytes x.confirm.msg) x.confirm.signature = true :=
        fun x hx => hchecks x (List.mem_cons_of_mem r hx)
      have htok' :
          ((tok + r.confirm.msg.input_tokens) % U64 + r.confirm.msg.resp_tokens) % U64 < U64 :=
        Nat.mod_lt _ (by decide)
      rw [ih ((curr + 1) % U32) _ htok' hchecks' hchain' hhead']
      congr 1
      have h1 : ((tok + r.confirm.msg.input_tokens) % U64 + r.confirm.msg.resp_tokens) % U64 =
          (tok + r.confirm.msg.input_tokens + r.confirm.msg.resp_tokens) % U64 :=
        Nat.mod_add_mod _ _ _
      rw [h1, Nat.mod_add_mod]
      have h2 : tok + r.confirm.msg.input_tokens + r.confirm.msg.resp_tokens + sumTokens rs =
          tok + sumTokens (r :: rs) := by
        simp [sumTokens]
        omega
      rw [h2]

theorem guestRounds_some_core (V : PublicKey → List Nat → List Nat → Bool) (pk : PublicKey) :
    ∀ (rounds : List Round) (curr tok t : Nat),
    guestRounds V pk rounds curr tok = some t →
    headSeq rounds curr ∧
    List.Chain' (fun a b => b.request.msg.seq = (a.request.msg.seq + 1) % U32) rounds ∧
    ∀ r ∈ rounds, r.confirm.msg.seq = r.request.msg.seq ∧
      r.request.signature.length = 64 ∧
      V pk (requestMsgBytes r.request.msg) r.request.signature = true ∧
      r.confirm.signature.length = 64 ∧
      V pk (confirmMsgBytes r.confirm.msg) r.confirm.signature = true := by
  intro rounds
  induction rounds with
  | nil =>
      intro curr tok t _
      exact ⟨trivial, List.chain'_nil, by simp⟩
  | cons r rs ih =>
      intro curr tok t h
      rw [guestRounds] at h
      by_cases hcond : r.request.msg.seq = curr ∧ r.confirm.msg.seq = curr ∧
          r.request.signature.length = 64 ∧
          V pk (requestMsgBytes r.request.msg) r.request.signature = true ∧
          r.confirm.signature.length = 64 ∧
          V pk (confirmMsgBytes r.confirm.msg) r.confirm.signature = true
      · rw [if_pos hcond] at h
        obtain ⟨hhead', hchain', hchecks'⟩ := ih _ _ _ h
        refine ⟨hcond.1, ?_, ?_⟩
        · cases rs with
          | nil => simp
          | cons r1 rs' =>
              refine List.chain'_cons.mpr ⟨?_, hchain'⟩
              have : r1.request.msg.seq = (curr + 1) % U32 := hhead'
              rw [this, hcond.1]
        · intro x hx
          rcases List.mem_cons.mp hx with hx | hx
          · subst hx
            exact ⟨hcond.2.1.trans hcond.1.symm, hcond.2.2.1, hcond.2.2.2.1,
              hcond.2.2.2.2.1, hcond.2.2.2.2.2⟩
          · exact hchecks' x hx
      · rw [if_neg hcond] at h
        exact absurd h (by simp)

theorem guestClient_ok (V : PublicKey → List Nat → List Nat → Bool)
    (pkValid : PublicKey → Bool) (pk : PublicKey) (rounds : List Round)
    (h : GuestCore V pkValid pk rounds) :
    guestClient V pkValid pk rounds =
      some ⟨pk, startSeq rounds, rounds.length % U32, sumTokens rounds % U64⟩ := by
  obtain ⟨hne, hpk, hchain, hchecks⟩ := h
  cases rounds with
  | nil => exact absurd rfl hne
  | cons r0 rs =>
      rw [guestClient, if_pos hpk,
        guestRounds_ok V pk (r0 :: rs) r0.request.msg.seq 0 (by decide) hchecks hchain rfl]
      simp [startSeq]

theorem guestClient_some_core (V : PublicKey → List Nat → List Nat → Bool)
    (pkValid : PublicKey → Bool) (pk : PublicKey) (rounds : List Round) (c : Claim)
    (h : guestClient V pkValid pk rounds = some c) :
    GuestCore V pkValid pk rounds := by
  cases rounds with
  | nil => simp [guestClient] at h
  | cons r0 rs =>
      rw [guestClient] at h
      by_cases hpk : pkValid pk = true
      · rw [if_pos hpk] at h
        cases hg : guestRounds V pk (r0 :: rs) r0.request.msg.seq 0 with
        | none => rw [hg] at h; exact absurd h (by simp)
        | some t =>
            obtain ⟨_, hchain, hchecks⟩ := guestRounds_some_core V pk _ _ _ _ hg
            exact ⟨by simp, hpk, hchain, hchecks⟩
      · rw [if_neg hpk] at h
        exact absurd h (by simp)

theorem guestMain_ok (V : PublicKey → List Nat → List Nat → Bool)
    (pkValid : PublicKey → Bool) :
    ∀ (input : List (PublicKey × List Round)),
    (∀ p ∈ input, GuestCore V pkValid p.1 p.2) →
    (∀ p ∈ input, p.2.length < U32 ∧ sumTokens p.2 < U64) →
    guestMain V pkValid input = some (guestJournal input) := by
  intro input
  induction input with
  | nil => intro _ _; rfl
  | cons p rest ih =>
      intro hcore hbounds
      obtain ⟨pk, rounds⟩ := p
      have hc := hcore _ (List.mem_cons_self _ rest)
      have hb := hbounds _ (List.mem_cons_self _ rest)
      rw [guestMain, guestClient_ok V pkValid pk rounds hc,
        ih (fun q hq => hcore q (List.mem_cons_of_mem _ hq))
          (fun q hq => hbounds q (List.mem_cons_of_mem _ hq))]
      have h1 : rounds.length % U32 = rounds.length := Nat.mod_eq_of_lt hb.1
      have h2 : sumTokens rounds % U64 = sumTokens rounds := Nat.mod_eq_of_lt hb.2
      simp [guestJournal, clientClaim, h1, h2]

theorem guestMain_abort (V : PublicKey → List Nat → List Nat → Bool)
    (pkValid : PublicKey → Bool) :
    ∀ (input : List (PublicKey × List Round)),
    (∃ p ∈ input, ¬ GuestCore V pkValid p.1 p.2) →
    guestMain V pkValid input = none := by
  intro input
  induction input with
  | nil => intro ⟨p, hp, _⟩; simp at hp
  | cons q rest ih =>
      intro ⟨p, hp, hnc⟩
      obtain ⟨pk, rounds⟩ := q
      rw [guestMain]
      cases hg : guestClient V pkValid pk rounds with
      | none => rfl
      | some c =>
          have hq : GuestCore V pkValid pk rounds := guestClient_some_core V pkValid _ _ _ hg
          rcases List.mem_cons.mp hp with hph | hpt
          · exact absurd (by rw [hph]; exact hq) hnc
          · rw [ih ⟨p, hpt, hnc⟩]

theorem guestJournal_length :
    ∀ (input : List (PublicKey × List Round)),
    (∀ p ∈ input, p.1.length = 32) →
    (guestJournal input).length = 48 * input.length := by
  intro input
  induction input with
  | nil => intro _; rfl
  | cons p rest ih =>
      intro h
      have hp := h _ (List.mem_cons_self _ rest)
      rw [guestJournal]
      simp only [List.length_append, ih (fun q hq => h q (List.mem_cons_of_mem _ hq)),
        claimBytes_length (clientClaim p) hp, List.length_cons]
      ring

/-- C2: on any input whose entries satisfy the claim's conditions
(non-empty lists, consecutive seqs, matching confirm seqs, valid
signatures) and whose values are in `u32`/`u64` range, the guest commits
exactly the concatenation of one 48-byte claim per client, the claim
fields being the first seq, the list length, and the plain token sum;
the journal length is `48 * #clients`, a multiple of 48.  Conversely any
violation of the conditions aborts proving with no journal committed. -/
theorem guest_main_spec (V : PublicKey → List Nat → List Nat → Bool)
    (pkValid : PublicKey → Bool) (input : List (PublicKey × List Round))
    (hcore : ∀ p ∈ input, GuestCore V pkValid p.1 p.2)
    (hbounds : ∀ p ∈ input, p.1.length = 32 ∧ p.2.length < U32 ∧ sumTokens p.2 < U64) :
    guestMain V pkValid input = some (guestJournal input) ∧
    (∀ p ∈ input, (claimBytes (clientClaim p)).length = 48 ∧
      (clientClaim p).pk = p.1 ∧ (clientClaim p).start_seq = startSeq p.2 ∧
      (clientClaim p).rounds = p.2.length ∧ (clientClaim p).tokens_consumed = sumTokens p.2) ∧
    (guestJournal input).length = 48 * input.length ∧
    (guestJournal input).length % 48 = 0 ∧
    (∀ input' : List (PublicKey × List Round),
      (∃ p ∈ input', ¬ GuestCore V pkValid p.1 p.2) →
      guestMain V pkValid input' = none) := by
  have hlen : (guestJournal input).length = 48 * input.length :=
    guestJournal_length input (fun p hp => (hbounds p hp).1)
  refine ⟨guestMain_ok V pkValid input hcore
      (fun p hp => ⟨(hbounds p hp).2.1, (hbounds p hp).2.2⟩), ?_, hlen, ?_, guestMain_abort V pkValid⟩
  · intro p hp
    exact ⟨claimBytes_length _ ((hbounds p hp).1), rfl, rfl, rfl, rfl⟩
  · rw [hlen]
    simp [Nat.mul_mod_right]

def pk0 : PublicKey := List.replicate 32 0

def sig64 : List Nat := List.replicate 64 0

def demoRound : Round := ⟨⟨⟨5⟩, sig64⟩, ⟨⟨5, 1, 2⟩, sig64⟩⟩

def demoInput : List (PublicKey × List Round) := [(pk0, [demoRound])]

def vTrue : PublicKey → List Nat → List Nat → Bool := fun _ _ _ => true

def pkvTrue : PublicKey → Bool := fun _ => true

theorem guest_main_spec_witness :
    guestMain vTrue pkvTrue demoInput = some (guestJournal demoInput) ∧
    (guestJournal demoInput).length % 48 = 0 := by
  have hcore : ∀ p ∈ demoInput, GuestCore vTrue pkvTrue p.1 p.2 := by
    intro p hp
    simp only [demoInput, List.mem_singleton] at hp
    subst hp
    exact ⟨by decide, rfl, List.chain'_singleton _, by decide⟩
  have h := guest_main_spec vTrue pkvTrue demoInput hcore (by decide)
  exact ⟨h.1, h.2.2.2.1⟩

/-! ### Per-operation case characterizations of the journal -/

theorem req_cases (s : JState) (r : CompletionsReq) :
    ((MetadataCache.req s r).1 = false ∧
      ¬((lookupA r.pk s.status = none ∧ r.request.msg.seq = 1) ∨
        (∃ st, lookupA r.pk s.status = some st ∧ st.state = RoundState.Completed ∧
          r.request.msg.seq = (st.seq + 1) % U32)) ∧
      (MetadataCache.req s r).2 = ⟨s.status, s.history, insertKey r.pk s.registry⟩) ∨
    (lookupA r.pk s.status = none ∧ r.request.msg.seq = 1 ∧
      MetadataCache.req s r = (true,
        ⟨updA r.pk ⟨1, 0, RoundState.Requested⟩ s.status, s.history,
         insertKey r.pk s.registry⟩)) ∨
    (∃ st, lookupA r.pk s.status = some st ∧ st.state = RoundState.Completed ∧
      r.request.msg.seq = (st.seq + 1) % U32 ∧
      MetadataCache.req s r = (true,
        ⟨updA r.pk ⟨r.request.msg.seq, st.commit_seq, RoundState.Requested⟩ s.status,
         s.history, insertKey r.pk s.registry⟩)) := by
  cases hl : lookupA r.pk s.status with
  | none =>
      by_cases hseq : r.request.msg.seq = 1
      · exact Or.inr (Or.inl ⟨rfl, hseq, by simp [MetadataCache.req, hl, hseq]⟩)
      · refine Or.inl ⟨by simp [MetadataCache.req, hl, hseq], ?_, by simp [MetadataCache.req, hl, hseq]⟩
        rintro (⟨_, h2⟩ | ⟨st, hst, _, _⟩)
        · exact hseq h2
        · exact absurd hst (by simp)
  | some st =>
      by_cases hg : st.state = RoundState.Completed ∧ r.request.msg.seq = (st.seq + 1) % U32
      · refine Or.inr (Or.inr ⟨st, rfl, hg.1, hg.2, ?_⟩)
        simp [MetadataCache.req, hl, hg]
      · refine Or.inl ⟨by simp [MetadataCache.req, hl, hg], ?_, by simp [MetadataCache.req, hl, hg]⟩
        rintro (⟨h1, _⟩ | ⟨st', hst', hs1, hs2⟩)
        · exact absurd h1 (by simp)
        · have : st' = st := by injection hst' with h; exact h.symm
          subst this
          exact hg ⟨hs1, hs2⟩

theorem resp_cases (s : JState) (r : CompletionsReq) (rp : CompletionsResp) :
    ((MetadataCache.resp s r rp).1 = false ∧
      (MetadataCache.resp s r rp).2 = ⟨s.status, s.history, insertKey r.pk s.registry⟩) ∨
    (∃ st, lookupA r.pk s.status = some st ∧ st.state = RoundState.Requested ∧
      st.seq = r.request.msg.seq ∧
      MetadataCache.resp s r rp = (true,
        ⟨updA r.pk ⟨st.seq, st.commit_seq, RoundState.WaitingConfirm⟩ s.status,
         updA (r.pk, st.seq) ⟨r.request.msg.seq, r, rp, none⟩ s.history,
         insertKey r.pk s.registry⟩)) := by
  cases hl : lookupA r.pk s.status with
  | none => exact Or.inl (by simp [MetadataCache.resp, hl])
  | some st =>
      by_cases hg : st.state = RoundState.Requested ∧ st.seq = r.request.msg.seq
      · refine Or.inr ⟨st, rfl, hg.1, hg.2, ?_⟩
        simp [MetadataCache.resp, hl, hg]
      · exact Or.inl (by simp [MetadataCache.resp, hl, hg])

theorem confirm_cases (s : JState) (c : ConfirmReq) :
    ((MetadataCache.confirm s c).1 = false ∧
      (MetadataCache.confirm s c).2 = ⟨s.status, s.history, insertKey c.pk s.registry⟩) ∨
    (∃ st rd, lookupA c.pk s.status = some st ∧ st.state = RoundState.WaitingConfirm ∧
      st.seq = c.confirm.msg.seq ∧
      lookupA (c.pk, c.confirm.msg.seq) s.history = some rd ∧
      MetadataCache.confirm s c = (true,
        ⟨updA c.pk ⟨st.seq, st.commit_seq, RoundState.Completed⟩ s.status,
         updA (c.pk, st.seq) { rd with confirm_msg := some c } s.history,
         insertKey c.pk s.registry⟩)) := by
  cases hl : lookupA c.pk s.status with
  | none => exact Or.inl (by simp [MetadataCache.confirm, hl])
  | some st =>
      by_cases hg : st.state = RoundState.WaitingConfirm ∧ st.seq = c.confirm.msg.seq
      · cases hh : lookupA (c.pk, c.confirm.msg.seq) s.history with
        | none => exact Or.inl (by simp [MetadataCache.confirm, hl, hg, hh])
        | some rd =>
            refine Or.inr ⟨st, rd, rfl, hg.1, hg.2, rfl, ?_⟩
            simp [MetadataCache.confirm, hl, hg, hh]
      · exact Or.inl (by simp [MetadataCache.confirm, hl, hg])

theorem removeRounds_sub (pk : PublicKey) :
    ∀ (l : List Nat) (s : JState),
    (MetadataCache.removeRounds s pk l).2.status = s.status ∧
    (MetadataCache.removeRounds s pk l).2.registry = s.registry ∧
    ∀ pk' q rd, lookupA (pk', q) (MetadataCache.removeRounds s pk l).2.history = some rd →
      lookupA (pk', q) s.history = some rd := by
  intro l
  induction l with
  | nil => intro s; exact ⟨rfl, rfl, fun _ _ _ h => h⟩
  | cons q0 qs ih =>
      intro s
      rw [MetadataCache.removeRounds]
      cases hh : lookupA (pk, q0) s.history with
      | none => exact ⟨rfl, rfl, fun _ _ _ h => h⟩
      | some rd0 =>
          obtain ⟨h1, h2, h3⟩ := ih { s with history := removeA (pk, q0) s.history }
          refine ⟨h1, h2, fun pk' q rd h => ?_⟩
          have := h3 pk' q rd h
          by_cases he : (pk', q) = (pk, q0)
          · rw [he, lookupA_removeA_self] at this
            exact absurd this (by simp)
          · rwa [lookupA_removeA_ne _ _ _ he] at this

theorem removeRounds_ok (pk : PublicKey) :
    ∀ (l : List Nat) (s : JState),
    (∀ q ∈ l, (lookupA (pk, q) s.history).isSome = true) → l.Nodup →
    ∃ s', MetadataCache.removeRounds s pk l = (true, s') ∧
      s'.status = s.status ∧ s'.registry = s.registry ∧
      ∀ pk' q, lookupA (pk', q) s'.history =
        if pk' = pk ∧ q ∈ l then none else lookupA (pk', q) s.history := by
  intro l
  induction l with
  | nil =>
      intro s _ _
      exact ⟨s, rfl, rfl, rfl, fun pk' q => by simp⟩
  | cons q0 qs ih =>
      intro s hsome hnd
      have h0 := hsome q0 (List.mem_cons_self _ _)
      cases hh : lookupA (pk, q0) s.history with
      | none => rw [hh] at h0; simp at h0
      | some rd0 =>
          have hstep : MetadataCache.removeRounds s pk (q0 :: qs) =
              MetadataCache.removeRounds { s with history := removeA (pk, q0) s.history } pk qs := by
            rw [MetadataCache.removeRounds, hh]
          obtain ⟨s', he, h1, h2, h3⟩ :=
            ih { s with history := removeA (pk, q0) s.history }
              (fun q hq => by
                have hne : (pk, q) ≠ (pk, q0) := by
                  intro e
                  exact (List.nodup_cons.mp hnd).1 (by
                    have : q = q0 := by injection e
                    rwa [this] at hq)
                rw [lookupA_removeA_ne _ _ _ hne]
                exact hsome q (List.mem_cons_of_mem _ hq))
              (List.nodup_cons.mp hnd).2
          refine ⟨s', hstep.trans he, h1, h2, fun pk' q => ?_⟩
          rw [h3 pk' q]
          by_cases hc : pk' = pk ∧ q ∈ qs
          · simp [hc, hc.1, List.mem_cons_of_mem _ hc.2]
          · by_cases hc2 : pk' = pk ∧ q ∈ q0 :: qs
            · have hq0 : q = q0 := by
                rcases List.mem_cons.mp hc2.2 with h | h
                · exact h
                · exact absurd ⟨hc2.1, h⟩ hc
              rw [if_neg hc, if_pos hc2, hc2.1, hq0]
              exact lookupA_removeA_self _ _
            · have hne : (pk', q) ≠ (pk, q0) := by
                intro e
                have e1 : pk' = pk := by injection e
                have e2 : q = q0 := by injection e
                exact hc2 ⟨e1, by rw [e2]; exact List.mem_cons_self _ _⟩
              rw [if_neg hc, if_neg hc2]
              exact lookupA_removeA_ne _ _ _ hne

/-! ### Traces of journal operations -/

/-- One journal operation (the mutating surface of `MetadataCache`,
plus the registry-touching read `load_round`). -/
inductive Op where
  | oreq (r : CompletionsReq)
  | oresp (r : CompletionsReq) (rp : CompletionsResp)
  | oconfirm (c : ConfirmReq)
  | ocommit (cs : List Claim)
  | oload (pk : PublicKey) (seq : Nat)
  deriving Repr

/-- The state reached after one operation (failed calls keep their
partial effects, which for all operations except `commit` is just the
registry insertion). -/
def stepOp (s : JState) : Op → JState
  | Op.oreq r => (MetadataCache.req s r).2
  | Op.oresp r rp => (MetadataCache.resp s r rp).2
  | Op.oconfirm c => (MetadataCache.confirm s c).2
  | Op.ocommit cs => (MetadataCache.commit s cs).2
  | Op.oload pk seq => (MetadataCache.load_round s pk seq).2

def execOps (s : JState) : List Op → JState
  | [] => s
  | op :: tr => execOps (stepOp s op) tr

/-- The sequence numbers of the accepted `req` calls of client `pk`
along a trace. -/
def acceptedReqSeqs (pk : PublicKey) (s : JState) : List Op → List Nat
  | [] => []
  | op :: tr =>
      match op with
      | Op.oreq r =>
          if r.pk = pk ∧ (MetadataCache.req s r).1 = true then
            r.request.msg.seq :: acceptedReqSeqs pk (stepOp s op) tr
          else
            acceptedReqSeqs pk (stepOp s op) tr
      | _ => acceptedReqSeqs pk (stepOp s op) tr

/-- The number of `req` operations (accepted or not) of client `pk` in a
trace; an upper bound for the accepted ones. -/
def countReqOps (pk : PublicKey) : List Op → Nat
  | [] => 0
  | Op.oreq r :: tr => (if r.pk = pk then 1 else 0) + countReqOps pk tr
  | _ :: tr => countReqOps pk tr

/-- The stored sequence number of a client (0 when no status exists). -/
def seqOf (s : JState) (pk : PublicKey) : Nat :=
  match lookupA pk s.status with
  | none => 0
  | some st => st.seq

/-- The per-client journal invariant: a missing status means no history;
an existing status has `1 ≤ seq < 2^32`, `commit_seq ≤ seq`, any
unconfirmed history record sits at the current `seq`, and in state
`Completed` the record at the current `seq` (if any) is confirmed. -/
def InvPk (s : JState) (pk : PublicKey) : Prop :=
  (lookupA pk s.status = none → ∀ q, lookupA (pk, q) s.history = none) ∧
  (∀ st, lookupA pk s.status = some st →
    1 ≤ st.seq ∧ st.commit_seq ≤ st.seq ∧ st.seq < U32 ∧
    (∀ q rd, lookupA (pk, q) s.history = some rd → rd.confirm_msg ≠ none ∨ q = st.seq) ∧
    (st.state = RoundState.Completed →
      ∀ rd, lookupA (pk, st.seq) s.history = some rd → rd.confirm_msg ≠ none))

def JInv (s : JState) : Prop := ∀ pk, InvPk s pk

theorem JInv_initState : JInv initState := by
  intro pk
  exact ⟨fun _ q => rfl, fun st h => by simp [initState, lookupA] at h⟩

/-- Transfer of the per-client invariant along a step that keeps the
client's status and only shrinks its history. -/
theorem InvPk_of_sub (s t : JState) (pk : PublicKey)
    (hstat : lookupA pk t.status = lookupA pk s.status)
    (hsub : ∀ q rd, lookupA (pk, q) t.history = some rd → lookupA (pk, q) s.history = some rd)
    (h : InvPk s pk) : InvPk t pk := by
  constructor
  · intro hn q
    rw [hstat] at hn
    cases ht : lookupA (pk, q) t.history with
    | none => rfl
    | some rd =>
        have := hsub q rd ht
        rw [h.1 hn q] at this
        exact absurd this (by simp)
  · intro st hst
    rw [hstat] at hst
    obtain ⟨h1, h2, h3, h4, h5⟩ := h.2 st hst
    refine ⟨h1, h2, h3, fun q rd hq => h4 q rd (hsub q rd hq),
      fun hc rd hq => h5 hc rd (hsub st.seq rd hq)⟩

theorem commitClaim_fail (s : JState) (c : Claim)
    (h : ¬(c.pk ∈ s.registry ∧ ∃ st, lookupA c.pk s.status = some st ∧
        (st.commit_seq + 1) % U32 = c.start_seq ∧ (st.commit_seq + c.rounds) % U32 ≤ st.seq)) :
    MetadataCache.commitClaim s c = (false, s) := by
  rw [MetadataCache.commitClaim]
  by_cases hreg : c.pk ∈ s.registry
  · rw [if_pos hreg]
    cases hl : lookupA c.pk s.status with
    | none => rfl
    | some st =>
        have hg : ¬((st.commit_seq + 1) % U32 = c.start_seq ∧
            (st.commit_seq + c.rounds) % U32 ≤ st.seq) := by
          intro hg
          exact h ⟨hreg, st, hl, hg.1, hg.2⟩
        simp only []
        rw [if_neg hg]
  · rw [if_neg hreg]

theorem commitClaim_ok (s : JState) (c : Claim) (st : PeerStatus)
    (hreg : c.pk ∈ s.registry)
    (hst : lookupA c.pk s.status = some st)
    (hg1 : (st.commit_seq + 1) % U32 = c.start_seq)
    (hg2 : (st.commit_seq + c.rounds) % U32 ≤ st.seq)
    (hnw : c.start_seq + c.rounds < U32)
    (hrec : ∀ q, c.start_seq ≤ q → q < c.start_seq + c.rounds →
      (lookupA (c.pk, q) s.history).isSome = true) :
    ∃ s', MetadataCache.commitClaim s c = (true, s') ∧
      s'.registry = s.registry ∧
      lookupA c.pk s'.status = some ⟨st.seq, (st.commit_seq + c.rounds) % U32, st.state⟩ ∧
      (∀ pk', pk' ≠ c.pk → lookupA pk' s'.status = lookupA pk' s.status) ∧
      (∀ q, lookupA (c.pk, q) s'.history =
        if c.start_seq ≤ q ∧ q < c.start_seq + c.rounds then none
        else lookupA (c.pk, q) s.history) ∧
      (∀ pk', pk' ≠ c.pk → ∀ q, lookupA (pk', q) s'.history = lookupA (pk', q) s.history) := by
  have hrange : (c.start_seq + c.rounds) % U32 = c.start_seq + c.rounds := Nat.mod_eq_of_lt hnw
  have hcc : MetadataCache.commitClaim s c =
      MetadataCache.removeRounds
        { s with status := updA c.pk ⟨st.seq, (st.commit_seq + c.rounds) % U32, st.state⟩ s.status }
        c.pk (rustRange c.start_seq ((c.start_seq + c.rounds) % U32)) := by
    rw [MetadataCache.commitClaim, if_pos hreg]
    simp only [hst]
    rw [if_pos ⟨hg1, hg2⟩]
  obtain ⟨s', he, h1, h2, h3⟩ := removeRounds_ok c.pk
    (rustRange c.start_seq ((c.start_seq + c.rounds) % U32))
    { s with status := updA c.pk ⟨st.seq, (st.commit_seq + c.rounds) % U32, st.state⟩ s.status }
    (fun q hq => by
      obtain ⟨ha, hb⟩ := (mem_rustRange _ _ q).mp hq
      rw [hrange] at hb
      exact hrec q ha hb)
    (by rw [rustRange]; exact List.nodup_range' _ _)
  refine ⟨s', hcc.trans he, h2, ?_, ?_, ?_, ?_⟩
  · rw [h1]
    exact lookupA_updA_self _ _ _
  · intro pk' hne
    rw [h1]
    exact lookupA_updA_ne _ _ _ _ hne
  · intro q
    rw [h3 c.pk q]
    by_cases hc : c.start_seq ≤ q ∧ q < c.start_seq + c.rounds
    · rw [if_pos ⟨rfl, (mem_rustRange _ _ q).mpr ⟨hc.1, by rw [hrange]; exact hc.2⟩⟩,
        if_pos hc]
    · have : ¬(c.pk = c.pk ∧ q ∈ rustRange c.start_seq ((c.start_seq + c.rounds) % U32)) := by
        intro ⟨_, hmem⟩
        obtain ⟨ha, hb⟩ := (mem_rustRange _ _ q).mp hmem
        rw [hrange] at hb
        exact hc ⟨ha, hb⟩
      rw [if_neg this, if_neg hc]
  · intro pk' hne q
    rw [h3 pk' q, if_neg (fun hcc2 => hne hcc2.1)]

theorem commitClaim_registry (s : JState) (c : Claim) :
    (MetadataCache.commitClaim s c).2.registry = s.registry := by
  rw [MetadataCache.commitClaim]
  by_cases hreg : c.pk ∈ s.registry
  · rw [if_pos hreg]
    cases hl : lookupA c.pk s.status with
    | none => rfl
    | some st =>
        simp only []
        by_cases hg : (st.commit_seq + 1) % U32 = c.start_seq ∧
            (st.commit_seq + c.rounds) % U32 ≤ st.seq
        · rw [if_pos hg]
          exact (removeRounds_sub c.pk _ _).2.1
        · rw [if_neg hg]
  · rw [if_neg hreg]

theorem commitClaim_inv (s : JState) (c : Claim) (hs : JInv s) :
    JInv (MetadataCache.commitClaim s c).2 := by
  rw [MetadataCache.commitClaim]
  by_cases hreg : c.pk ∈ s.registry
  · rw [if_pos hreg]
    cases hl : lookupA c.pk s.status with
    | none => exact hs
    | some st =>
        simp only []
        by_cases hg : (st.commit_seq + 1) % U32 = c.start_seq ∧
            (st.commit_seq + c.rounds) % U32 ≤ st.seq
        · rw [if_pos hg]
          obtain ⟨hsub1, _, hsub3⟩ := removeRounds_sub c.pk
            (rustRange c.start_seq ((c.start_seq + c.rounds) % U32))
            { s with status := updA c.pk ⟨st.seq, (st.commit_seq + c.rounds) % U32, st.state⟩ s.status }
          intro pk
          by_cases hpk : pk = c.pk
          · subst hpk
            constructor
            · intro hn
              rw [hsub1] at hn
              rw [lookupA_updA_self] at hn
              exact absurd hn (by simp)
            · intro st' hst'
              rw [hsub1, lookupA_updA_self] at hst'
              have hst'' : st' = ⟨st.seq, (st.commit_seq + c.rounds) % U32, st.state⟩ := by
                injection hst' with h
                exact h.symm
              obtain ⟨i1, i2, i3, i4, i5⟩ := (hs c.pk).2 st hl
              subst hst''
              refine ⟨i1, hg.2, i3, ?_, ?_⟩
              · intro q rd hq
                exact i4 q rd (hsub3 c.pk q rd hq)
              · intro hcs rd hq
                exact i5 hcs rd (hsub3 c.pk st.seq rd hq)
          · refine InvPk_of_sub s _ pk ?_ ?_ (hs pk)
            · rw [hsub1]
              exact lookupA_updA_ne _ _ _ _ hpk
            · intro q rd hq
              exact hsub3 pk q rd hq
        · rw [if_neg hg]
          exact hs
  · rw [if_neg hreg]
    exact hs

theorem commitGo_cons (s : JState) (c : Claim) (cs : List Claim) :
    MetadataCache.commitGo s (c :: cs) =
      (if (MetadataCache.commitClaim s c).1 = true
       then MetadataCache.commitGo (MetadataCache.commitClaim s c).2 cs
       else MetadataCache.commitClaim s c) := by
  rw [MetadataCache.commitGo]
  cases he : MetadataCache.commitClaim s c with
  | mk fl s1 =>
      cases fl
      · simp
      · simp

theorem commitGo_append_ok : ∀ (l1 : List Claim) (s : JState) (l2 : List Claim),
    (MetadataCache.commitGo s l1).1 = true →
    MetadataCache.commitGo s (l1 ++ l2) =
      MetadataCache.commitGo (MetadataCache.commitGo s l1).2 l2 := by
  intro l1
  induction l1 with
  | nil => intro s l2 _; rfl
  | cons c cs ih =>
      intro s l2 h
      rw [commitGo_cons] at h
      rw [List.cons_append, commitGo_cons]
      by_cases hc : (MetadataCache.commitClaim s c).1 = true
      · rw [if_pos hc] at h ⊢
        rw [ih _ _ h]
        congr 1
        rw [commitGo_cons, if_pos hc]
      · rw [if_neg hc] at h
        exact absurd h hc

theorem commitGo_registry : ∀ (l : List Claim) (s : JState),
    (MetadataCache.commitGo s l).2.registry = s.registry := by
  intro l
  induction l with
  | nil => intro s; rfl
  | cons c cs ih =>
      intro s
      rw [commitGo_cons]
      by_cases hc : (MetadataCache.commitClaim s c).1 = true
      · rw [if_pos hc, ih]
        exact commitClaim_registry s c
      · rw [if_neg hc]
        exact commitClaim_registry s c

theorem commitGo_inv : ∀ (l : List Claim) (s : JState), JInv s →
    JInv (MetadataCache.commitGo s l).2 := by
  intro l
  induction l with
  | nil => intro s hs; exact hs
  | cons c cs ih =>
      intro s hs
      rw [commitGo_cons]
      by_cases hc : (MetadataCache.commitClaim s c).1 = true
      · rw [if_pos hc]
        exact ih _ (commitClaim_inv s c hs)
      · rw [if_neg hc]
        exact commitClaim_inv s c hs

theorem commitClaim_seqOf (s : JState) (c : Claim) (pk : PublicKey) :
    seqOf (MetadataCache.commitClaim s c).2 pk = seqOf s pk := by
  rw [MetadataCache.commitClaim]
  by_cases hreg : c.pk ∈ s.registry
  · rw [if_pos hreg]
    cases hl : lookupA c.pk s.status with
    | none => rfl
    | some st =>
        simp only []
        by_cases hg : (st.commit_seq + 1) % U32 = c.start_seq ∧
            (st.commit_seq + c.rounds) % U32 ≤ st.seq
        · rw [if_pos hg]
          have h1 := (removeRounds_sub c.pk
            (rustRange c.start_seq ((c.start_seq + c.rounds) % U32))
            { s with status := updA c.pk ⟨st.seq, (st.commit_seq + c.rounds) % U32, st.state⟩ s.status }).1
          rw [seqOf, h1]
          by_cases hpk : pk = c.pk
          · subst hpk
            rw [lookupA_updA_self, seqOf, hl]
          · rw [lookupA_updA_ne _ _ _ _ hpk, seqOf]
        · rw [if_neg hg]
  · rw [if_neg hreg]

theorem commitGo_seqOf : ∀ (l : List Claim) (s : JState) (pk : PublicKey),
    seqOf (MetadataCache.commitGo s l).2 pk = seqOf s pk := by
  intro l
  induction l with
  | nil => intro s pk; rfl
  | cons c cs ih =>
      intro s pk
      rw [commitGo_cons]
      by_cases hc : (MetadataCache.commitClaim s c).1 = true
      · rw [if_pos hc, ih]
        exact commitClaim_seqOf s c pk
      · rw [if_neg hc]
        exact commitClaim_seqOf s c pk

theorem InvPk_congr (s t : JState) (pk : PublicKey)
    (h1 : t.status = s.status) (h2 : t.history = s.history) (h : InvPk s pk) : InvPk t pk :=
  InvPk_of_sub s t pk (by rw [h1]) (fun q rd hq => by rwa [h2] at hq) h

theorem req_inv (s : JState) (r : CompletionsReq) (hs : JInv s)
    (hb : seqOf s r.pk + 1 < U32) : JInv (MetadataCache.req s r).2 := by
  rcases req_cases s r with ⟨_, _, he⟩ | ⟨hl, hseq, he⟩ | ⟨st, hl, hstate, hseq, he⟩
  · rw [he]
    intro pk
    exact InvPk_congr s _ pk rfl rfl (hs pk)
  · rw [he]
    intro pk
    by_cases hpk : pk = r.pk
    · subst hpk
      constructor
      · intro hn
        simp only [] at hn
        rw [lookupA_updA_self] at hn
        exact absurd hn (by simp)
      · intro st' hst'
        simp only [] at hst' ⊢
        rw [lookupA_updA_self] at hst'
        have hst'' : st' = ⟨1, 0, RoundState.Requested⟩ := by
          injection hst' with h
          exact h.symm
        subst hst''
        refine ⟨le_refl 1, Nat.zero_le 1, by decide, ?_, ?_⟩
        · intro q rd hq
          rw [(hs r.pk).1 hl q] at hq
          exact absurd hq (by simp)
        · intro hc
          exact absurd hc (by decide)
    · refine InvPk_of_sub s _ pk ?_ (fun q rd hq => hq) (hs pk)
      simp only []
      exact lookupA_updA_ne _ _ _ _ hpk
  · have hseqof : seqOf s r.pk = st.seq := by rw [seqOf, hl]
    rw [hseqof] at hb
    have hseq' : r.request.msg.seq = st.seq + 1 := by
      rw [hseq, Nat.mod_eq_of_lt hb]
    rw [he]
    intro pk
    by_cases hpk : pk = r.pk
    · subst hpk
      obtain ⟨i1, i2, i3, i4, i5⟩ := (hs r.pk).2 st hl
      constructor
      · intro hn
        simp only [] at hn
        rw [lookupA_updA_self] at hn
        exact absurd hn (by simp)
      · intro st' hst'
        simp only [] at hst' ⊢
        rw [lookupA_updA_self] at hst'
        have hst'' : st' = ⟨r.request.msg.seq, st.commit_seq, RoundState.Requested⟩ := by
          injection hst' with h
          exact h.symm
        subst hst''
        simp only [hseq']
        refine ⟨Nat.le_add_left 1 st.seq, Nat.le_succ_of_le i2, hb, ?_, ?_⟩
        · intro q rd hq
          rcases i4 q rd hq with hc | hqe
          · exact Or.inl hc
          · subst hqe
            exact Or.inl (i5 hstate rd hq)
        · intro hc
          exact absurd hc (by simp)
    · refine InvPk_of_sub s _ pk ?_ (fun q rd hq => hq) (hs pk)
      simp only []
      exact lookupA_updA_ne _ _ _ _ hpk

theorem resp_inv (s : JState) (r : CompletionsReq) (rp : CompletionsResp) (hs : JInv s) :
    JInv (MetadataCache.resp s r rp).2 := by
  rcases resp_cases s r rp with ⟨_, he⟩ | ⟨st, hl, hstate, hseq, he⟩
  · rw [he]
    intro pk
    exact InvPk_congr s _ pk rfl rfl (hs pk)
  · rw [he]
    intro pk
    by_cases hpk : pk = r.pk
    · subst hpk
      obtain ⟨i1, i2, i3, i4, i5⟩ := (hs r.pk).2 st hl
      constructor
      · intro hn
        simp only [] at hn
        rw [lookupA_updA_self] at hn
        exact absurd hn (by simp)
      · intro st' hst'
        simp only [] at hst' ⊢
        rw [lookupA_updA_self] at hst'
        have hst'' : st' = ⟨st.seq, st.commit_seq, RoundState.WaitingConfirm⟩ := by
          injection hst' with h
          exact h.symm
        subst hst''
        refine ⟨i1, i2, i3, ?_, ?_⟩
        · intro q rd hq
          by_cases hq2 : q = st.seq
          · exact Or.inr hq2
          · have hne : ((r.pk, q) : PublicKey × Nat) ≠ (r.pk, st.seq) := by
              intro e
              exact hq2 (by injection e)
            rw [lookupA_updA_ne _ _ _ _ hne] at hq
            exact i4 q rd hq
        · intro hc
          exact absurd hc (by simp)
    · refine InvPk_of_sub s _ pk ?_ ?_ (hs pk)
      · simp only []
        exact lookupA_updA_ne _ _ _ _ hpk
      · intro q rd hq
        simp only [] at hq
        have hne : ((pk, q) : PublicKey × Nat) ≠ (r.pk, st.seq) := by
          intro e
          exact hpk (by injection e)
        rwa [lookupA_updA_ne _ _ _ _ hne] at hq

theorem confirm_inv (s : JState) (c : ConfirmReq) (hs : JInv s) :
    JInv (MetadataCache.confirm s c).2 := by
  rcases confirm_cases s c with ⟨_, he⟩ | ⟨st, rd, hl, hstate, hseq, hh, he⟩
  · rw [he]
    intro pk
    exact InvPk_congr s _ pk rfl rfl (hs pk)
  · rw [he]
    intro pk
    by_cases hpk : pk = c.pk
    · subst hpk
      obtain ⟨i1, i2, i3, i4, i5⟩ := (hs c.pk).2 st hl
      constructor
      · intro hn
        simp only [] at hn
        rw [lookupA_updA_self] at hn
        exact absurd hn (by simp)
      · intro st' hst'
        simp only [] at hst' ⊢
        rw [lookupA_updA_self] at hst'
        have hst'' : st' = ⟨st.seq, st.commit_seq, RoundState.Completed⟩ := by
          injection hst' with h
          exact h.symm
        subst hst''
        refine ⟨i1, i2, i3, ?_, ?_⟩
        · intro q rd' hq
          by_cases hq2 : q = st.seq
          · subst hq2
            rw [lookupA_updA_self] at hq
            have : rd' = { rd with confirm_msg := some c } := by
              injection hq with h
              exact h.symm
            subst this
            exact Or.inl (by simp)
          · have hne : ((c.pk, q) : PublicKey × Nat) ≠ (c.pk, st.seq) := by
              intro e
              exact hq2 (by injection e)
            rw [lookupA_updA_ne _ _ _ _ hne] at hq
            exact i4 q rd' hq
        · intro _ rd' hq
          rw [lookupA_updA_self] at hq
          have : rd' = { rd with confirm_msg := some c } := by
            injection hq with h
            exact h.symm
          subst this
          simp
    · refine InvPk_of_sub s _ pk ?_ ?_ (hs pk)
      · simp only []
        exact lookupA_updA_ne _ _ _ _ hpk
      · intro q rd' hq
        simp only [] at hq
        have hne : ((pk, q) : PublicKey × Nat) ≠ (c.pk, st.seq) := by
          intro e
          exact hpk (by injection e)
        rwa [lookupA_updA_ne _ _ _ _ hne] at hq

theorem load_round_inv (s : JState) (pk0 : PublicKey) (q0 : Nat) (hs : JInv s) :
    JInv (MetadataCache.load_round s pk0 q0).2 := by
  intro pk
  exact InvPk_congr s _ pk rfl rfl (hs pk)

theorem resp_seqOf (s : JState) (r : CompletionsReq) (rp : CompletionsResp) (pk : PublicKey) :
    seqOf (MetadataCache.resp s r rp).2 pk = seqOf s pk := by
  rcases resp_cases s r rp with ⟨_, he⟩ | ⟨st, hl, _, _, he⟩
  · rw [he, seqOf, seqOf]
  · rw [he]
    by_cases hpk : pk = r.pk
    · subst hpk
      simp only [seqOf, lookupA_updA_self, hl]
    · simp only [seqOf, lookupA_updA_ne _ _ _ _ hpk]

theorem confirm_seqOf (s : JState) (c : ConfirmReq) (pk : PublicKey) :
    seqOf (MetadataCache.confirm s c).2 pk = seqOf s pk := by
  rcases confirm_cases s c with ⟨_, he⟩ | ⟨st, rd, hl, _, _, _, he⟩
  · rw [he, seqOf, seqOf]
  · rw [he]
    by_cases hpk : pk = c.pk
    · subst hpk
      simp only [seqOf, lookupA_updA_self, hl]
    · simp only [seqOf, lookupA_updA_ne _ _ _ _ hpk]

theorem load_round_seqOf (s : JState) (pk0 : PublicKey) (q0 : Nat) (pk : PublicKey) :
    seqOf (MetadataCache.load_round s pk0 q0).2 pk = seqOf s pk := rfl

theorem req_seqOf_ne (s : JState) (r : CompletionsReq) (pk : PublicKey) (h : pk ≠ r.pk) :
    seqOf (MetadataCache.req s r).2 pk = seqOf s pk := by
  rcases req_cases s r with ⟨_, _, he⟩ | ⟨hl, hseq, he⟩ | ⟨st, hl, _, hseq, he⟩
  · rw [he, seqOf, seqOf]
  · rw [he]
    simp only [seqOf, lookupA_updA_ne _ _ _ _ h]
  · rw [he]
    simp only [seqOf, lookupA_updA_ne _ _ _ _ h]

theorem req_false_state (s : JState) (r : CompletionsReq)
    (h : (MetadataCache.req s r).1 = false) :
    (MetadataCache.req s r).2 = ⟨s.status, s.history, insertKey r.pk s.registry⟩ := by
  rcases req_cases s r with ⟨_, _, he⟩ | ⟨_, _, he⟩ | ⟨st, _, _, _, he⟩
  · exact he
  · rw [he] at h
    exact absurd h (by simp)
  · rw [he] at h
    exact absurd h (by simp)

theorem req_true_facts (s : JState) (r : CompletionsReq)
    (hflag : (MetadataCache.req s r).1 = true) (hb : seqOf s r.pk + 1 < U32) :
    r.request.msg.seq = seqOf s r.pk + 1 ∧
    seqOf (MetadataCache.req s r).2 r.pk = seqOf s r.pk + 1 := by
  rcases req_cases s r with ⟨hf, _, _⟩ | ⟨hl, hseq, he⟩ | ⟨st, hl, _, hseq, he⟩
  · rw [hf] at hflag
    exact absurd hflag (by simp)
  · have h0 : seqOf s r.pk = 0 := by rw [seqOf, hl]
    refine ⟨by rw [hseq, h0], ?_⟩
    rw [he, h0]
    simp only [seqOf, lookupA_updA_self]
  · have h0 : seqOf s r.pk = st.seq := by rw [seqOf, hl]
    rw [h0] at hb
    have hseq' : r.request.msg.seq = st.seq + 1 := by rw [hseq, Nat.mod_eq_of_lt hb]
    refine ⟨by rw [hseq', h0], ?_⟩
    rw [he, h0]
    simp only [seqOf, lookupA_updA_self, hseq']

theorem countReqOps_cons_req (pk : PublicKey) (r : CompletionsReq) (tr : List Op) :
    countReqOps pk (Op.oreq r :: tr) = (if r.pk = pk then 1 else 0) + countReqOps pk tr := rfl

theorem countReqOps_cons_resp (pk : PublicKey) (r : CompletionsReq) (rp : CompletionsResp)
    (tr : List Op) : countReqOps pk (Op.oresp r rp :: tr) = countReqOps pk tr := rfl

theorem countReqOps_cons_confirm (pk : PublicKey) (c : ConfirmReq) (tr : List Op) :
    countReqOps pk (Op.oconfirm c :: tr) = countReqOps pk tr := rfl

theorem countReqOps_cons_commit (pk : PublicKey) (cs : List Claim) (tr : List Op) :
    countReqOps pk (Op.ocommit cs :: tr) = countReqOps pk tr := rfl

theorem countReqOps_cons_load (pk pk0 : PublicKey) (q0 : Nat) (tr : List Op) :
    countReqOps pk (Op.oload pk0 q0 :: tr) = countReqOps pk tr := rfl

theorem acceptedReqSeqs_cons_req (pk : PublicKey) (s : JState) (r : CompletionsReq)
    (tr : List Op) :
    acceptedReqSeqs pk s (Op.oreq r :: tr) =
      (if r.pk = pk ∧ (MetadataCache.req s r).1 = true
       then r.request.msg.seq :: acceptedReqSeqs pk (stepOp s (Op.oreq r)) tr
       else acceptedReqSeqs pk (stepOp s (Op.oreq r)) tr) := rfl

theorem acceptedReqSeqs_cons_resp (pk : PublicKey) (s : JState) (r : CompletionsReq)
    (rp : CompletionsResp) (tr : List Op) :
    acceptedReqSeqs pk s (Op.oresp r rp :: tr) =
      acceptedReqSeqs pk (stepOp s (Op.oresp r rp)) tr := rfl

theorem acceptedReqSeqs_cons_confirm (pk : PublicKey) (s : JState) (c : ConfirmReq)
    (tr : List Op) :
    acceptedReqSeqs pk s (Op.oconfirm c :: tr) =
      acceptedReqSeqs pk (stepOp s (Op.oconfirm c)) tr := rfl

theorem acceptedReqSeqs_cons_commit (pk : PublicKey) (s : JState) (cs : List Claim)
    (tr : List Op) :
    acceptedReqSeqs pk s (Op.ocommit cs :: tr) =
      acceptedReqSeqs pk (stepOp s (Op.ocommit cs)) tr := rfl

theorem acceptedReqSeqs_cons_load (pk : PublicKey) (s : JState) (pk0 : PublicKey) (q0 : Nat)
    (tr : List Op) :
    acceptedReqSeqs pk s (Op.oload pk0 q0 :: tr) =
      acceptedReqSeqs pk (stepOp s (Op.oload pk0 q0)) tr := rfl

theorem countReqOps_le_length (pk : PublicKey) : ∀ (tr : List Op),
    countReqOps pk tr ≤ tr.length := by
  intro tr
  induction tr with
  | nil => exact Nat.le_refl 0
  | cons op tr ih =>
      cases op with
      | oreq r =>
          rw [countReqOps_cons_req, List.length_cons]
          by_cases h : r.pk = pk
          · rw [if_pos h]; omega
          · rw [if_neg h]; omega
      | oresp r rp => rw [countReqOps_cons_resp, List.length_cons]; omega
      | oconfirm c => rw [countReqOps_cons_confirm, List.length_cons]; omega
      | ocommit cs => rw [countReqOps_cons_commit, List.length_cons]; omega
      | oload pk0 q0 => rw [countReqOps_cons_load, List.length_cons]; omega

theorem exec_master : ∀ (tr : List Op) (s : JState), JInv s →
    (∀ pk, seqOf s pk + countReqOps pk tr < U32) →
    JInv (execOps s tr) ∧
    ∀ pk, seqOf s pk ≤ seqOf (execOps s tr) pk ∧
      acceptedReqSeqs pk s tr =
        List.range' (seqOf s pk + 1) (seqOf (execOps s tr) pk - seqOf s pk) := by
  intro tr
  induction tr with
  | nil =>
      intro s hs hb
      refine ⟨hs, fun pk => ⟨Nat.le_refl _, ?_⟩⟩
      simp [acceptedReqSeqs, execOps]
  | cons op tr ih =>
      intro s hs hb
      cases op with
      | oreq r =>
          have hb_r : seqOf s r.pk + 1 < U32 := by
            have h := hb r.pk
            rw [countReqOps_cons_req, if_pos rfl] at h
            omega
          have hinv' : JInv (stepOp s (Op.oreq r)) := req_inv s r hs hb_r
          cases hflag : (MetadataCache.req s r).1 with
          | false =>
              have hstate := req_false_state s r hflag
              have hseq_all : ∀ pk, seqOf (stepOp s (Op.oreq r)) pk = seqOf s pk := by
                intro pk
                rw [stepOp, hstate, seqOf, seqOf]
              have hb' : ∀ pk, seqOf (stepOp s (Op.oreq r)) pk + countReqOps pk tr < U32 := by
                intro pk
                rw [hseq_all pk]
                have h := hb pk
                rw [countReqOps_cons_req] at h
                by_cases hr : r.pk = pk
                · rw [if_pos hr] at h; omega
                · rw [if_neg hr] at h; omega
              obtain ⟨ih1, ih2⟩ := ih (stepOp s (Op.oreq r)) hinv' hb'
              refine ⟨ih1, fun pk => ?_⟩
              have hacc : acceptedReqSeqs pk s (Op.oreq r :: tr) =
                  acceptedReqSeqs pk (stepOp s (Op.oreq r)) tr := by
                rw [acceptedReqSeqs_cons_req,
                  if_neg (fun hcond => by rw [hflag] at hcond; exact absurd hcond.2 (by simp))]
              have hexec : execOps s (Op.oreq r :: tr) = execOps (stepOp s (Op.oreq r)) tr := rfl
              rw [hexec, hacc, ← hseq_all pk]
              exact ih2 pk
          | true =>
              have hfacts := req_true_facts s r hflag hb_r
              have hb' : ∀ pk, seqOf (stepOp s (Op.oreq r)) pk + countReqOps pk tr < U32 := by
                intro pk
                have h := hb pk
                rw [countReqOps_cons_req] at h
                by_cases hr : r.pk = pk
                · rw [if_pos hr] at h
                  subst hr
                  rw [stepOp, hfacts.2]
                  omega
                · rw [if_neg hr] at h
                  rw [stepOp, req_seqOf_ne s r pk (fun e => hr e.symm)]
                  omega
              obtain ⟨ih1, ih2⟩ := ih (stepOp s (Op.oreq r)) hinv' hb'
              refine ⟨ih1, fun pk => ?_⟩
              have hexec : execOps s (Op.oreq r :: tr) = execOps (stepOp s (Op.oreq r)) tr := rfl
              by_cases hr : r.pk = pk
              · subst hr
                have hstep : seqOf (stepOp s (Op.oreq r)) r.pk = seqOf s r.pk + 1 := by
                  rw [stepOp, hfacts.2]
                have hmono := (ih2 r.pk).1
                rw [hstep] at hmono
                have hacc : acceptedReqSeqs r.pk s (Op.oreq r :: tr) =
                    r.request.msg.seq :: acceptedReqSeqs r.pk (stepOp s (Op.oreq r)) tr := by
                  rw [acceptedReqSeqs_cons_req, if_pos ⟨rfl, hflag⟩]
                constructor
                · rw [hexec]
                  omega
                · rw [hexec, hacc, (ih2 r.pk).2, hstep, hfacts.1]
                  have hsub : seqOf (execOps (stepOp s (Op.oreq r)) tr) r.pk - seqOf s r.pk =
                      (seqOf (execOps (stepOp s (Op.oreq r)) tr) r.pk - (seqOf s r.pk + 1)) + 1 := by
                    omega
                  rw [hsub, List.range'_succ]
              · have hstep : seqOf (stepOp s (Op.oreq r)) pk = seqOf s pk := by
                  rw [stepOp, req_seqOf_ne s r pk (fun e => hr e.symm)]
                have hacc : acceptedReqSeqs pk s (Op.oreq r :: tr) =
                    acceptedReqSeqs pk (stepOp s (Op.oreq r)) tr := by
                  rw [acceptedReqSeqs_cons_req, if_neg (fun hcond => hr hcond.1)]
                rw [hexec, hacc, ← hstep]
                exact ih2 pk
      | oresp r rp =>
          have hinv' : JInv (stepOp s (Op.oresp r rp)) := resp_inv s r rp hs
          have hseq_all : ∀ pk, seqOf (stepOp s (Op.oresp r rp)) pk = seqOf s pk :=
            fun pk => resp_seqOf s r rp pk
          have hb' : ∀ pk, seqOf (stepOp s (Op.oresp r rp)) pk + countReqOps pk tr < U32 := by
            intro pk
            rw [hseq_all pk]
            have h := hb pk
            rw [countReqOps_cons_resp] at h
            omega
          obtain ⟨ih1, ih2⟩ := ih _ hinv' hb'
          refine ⟨ih1, fun pk => ?_⟩
          rw [show execOps s (Op.oresp r rp :: tr) = execOps (stepOp s (Op.oresp r rp)) tr from rfl,
            acceptedReqSeqs_cons_resp, ← hseq_all pk]
          exact ih2 pk
      | oconfirm c =>
          have hinv' : JInv (stepOp s (Op.oconfirm c)) := confirm_inv s c hs
          have hseq_all : ∀ pk, seqOf (stepOp s (Op.oconfirm c)) pk = seqOf s pk :=
            fun pk => confirm_seqOf s c pk
          have hb' : ∀ pk, seqOf (stepOp s (Op.oconfirm c)) pk + countReqOps pk tr < U32 := by
            intro pk
            rw [hseq_all pk]
            have h := hb pk
            rw [countReqOps_cons_confirm] at h
            omega
          obtain ⟨ih1, ih2⟩ := ih _ hinv' hb'
          refine ⟨ih1, fun pk => ?_⟩
          rw [show execOps s (Op.oconfirm c :: tr) = execOps (stepOp s (Op.oconfirm c)) tr from rfl,
            acceptedReqSeqs_cons_confirm, ← hseq_all pk]
          exact ih2 pk
      | ocommit cs =>
          have hinv' : JInv (stepOp s (Op.ocommit cs)) := commitGo_inv cs s hs
          have hseq_all : ∀ pk, seqOf (stepOp s (Op.ocommit cs)) pk = seqOf s pk :=
            fun pk => commitGo_seqOf cs s pk
          have hb' : ∀ pk, seqOf (stepOp s (Op.ocommit cs)) pk + countReqOps pk tr < U32 := by
            intro pk
            rw [hseq_all pk]
            have h := hb pk
            rw [countReqOps_cons_commit] at h
            omega
          obtain ⟨ih1, ih2⟩ := ih _ hinv' hb'
          refine ⟨ih1, fun pk => ?_⟩
          rw [show execOps s (Op.ocommit cs :: tr) = execOps (stepOp s (Op.ocommit cs)) tr from rfl,
            acceptedReqSeqs_cons_commit, ← hseq_all pk]
          exact ih2 pk
      | oload pk0 q0 =>
          have hinv' : JInv (stepOp s (Op.oload pk0 q0)) := load_round_inv s pk0 q0 hs
          have hseq_all : ∀ pk, seqOf (stepOp s (Op.oload pk0 q0)) pk = seqOf s pk :=
            fun pk => rfl
          have hb' : ∀ pk, seqOf (stepOp s (Op.oload pk0 q0)) pk + countReqOps pk tr < U32 := by
            intro pk
            rw [hseq_all pk]
            have h := hb pk
            rw [countReqOps_cons_load] at h
            omega
          obtain ⟨ih1, ih2⟩ := ih _ hinv' hb'
          refine ⟨ih1, fun pk => ?_⟩
          rw [show execOps s (Op.oload pk0 q0 :: tr) = execOps (stepOp s (Op.oload pk0 q0)) tr from rfl,
            acceptedReqSeqs_cons_load, ← hseq_all pk]
          exact ih2 pk

theorem req_true_iff (s : JState) (r : CompletionsReq) :
    (MetadataCache.req s r).1 = true ↔
      (lookupA r.pk s.status = none ∧ r.request.msg.seq = 1) ∨
      (∃ st, lookupA r.pk s.status = some st ∧ st.state = RoundState.Completed ∧
        r.request.msg.seq = (st.seq + 1) % U32) := by
  rcases req_cases s r with ⟨hf, hncond, _⟩ | ⟨hl, hseq, he⟩ | ⟨st, hl, hstate, hseq, he⟩
  · rw [hf]
    exact iff_of_false (by simp) hncond
  · rw [he]
    exact iff_of_true rfl (Or.inl ⟨hl, hseq⟩)
  · rw [he]
    exact iff_of_true rfl (Or.inr ⟨st, hl, hstate, hseq⟩)

/-- C3: `req(seq)` succeeds iff either no status exists and `seq = 1`
(creating `{seq 1, commit_seq 0, Requested}`), or the status is
`Completed` and `seq` is the u32 successor of the stored seq (advancing
`seq` and keeping `commit_seq`); any other call fails leaving status and
history unchanged.  Consequently, along any trace of fewer than `2^32`
journal operations from the initial state, the accepted `req` calls of
any client carry exactly the strictly consecutive sequence numbers
`1, 2, 3, ...`. -/
theorem req_spec :
    (∀ (s : JState) (r : CompletionsReq),
      ((MetadataCache.req s r).1 = true ↔
        (lookupA r.pk s.status = none ∧ r.request.msg.seq = 1) ∨
        (∃ st, lookupA r.pk s.status = some st ∧ st.state = RoundState.Completed ∧
          r.request.msg.seq = (st.seq + 1) % U32)) ∧
      (lookupA r.pk s.status = none → r.request.msg.seq = 1 →
        lookupA r.pk (MetadataCache.req s r).2.status = some ⟨1, 0, RoundState.Requested⟩) ∧
      (∀ st, lookupA r.pk s.status = some st → st.state = RoundState.Completed →
        r.request.msg.seq = (st.seq + 1) % U32 →
        lookupA r.pk (MetadataCache.req s r).2.status =
          some ⟨r.request.msg.seq, st.commit_seq, RoundState.Requested⟩) ∧
      ((MetadataCache.req s r).1 = false →
        (MetadataCache.req s r).2.status = s.status ∧
        (MetadataCache.req s r).2.history = s.history)) ∧
    (∀ (tr : List Op) (pk : PublicKey), tr.length < U32 →
      acceptedReqSeqs pk initState tr =
        List.range' 1 (seqOf (execOps initState tr) pk)) := by
  constructor
  · intro s r
    refine ⟨req_true_iff s r, ?_, ?_, ?_⟩
    · intro hnone hseq1
      rcases req_cases s r with ⟨_, hncond, _⟩ | ⟨hl, hseq, he⟩ | ⟨st, hl, _, _, _⟩
      · exact absurd (Or.inl ⟨hnone, hseq1⟩) hncond
      · rw [he]
        simp only []
        rw [lookupA_updA_self]
      · rw [hnone] at hl
        exact absurd hl (by simp)
    · intro st hst hcomp hsucc
      rcases req_cases s r with ⟨_, hncond, _⟩ | ⟨hl, _, _⟩ | ⟨st', hl, _, _, he⟩
      · exact absurd (Or.inr ⟨st, hst, hcomp, hsucc⟩) hncond
      · rw [hst] at hl
        exact absurd hl (by simp)
      · have hst' : st' = st := by
          rw [hst] at hl
          injection hl with h
          exact h.symm
        subst hst'
        rw [he]
        simp only []
        rw [lookupA_updA_self]
    · intro hfl
      have := req_false_state s r hfl
      rw [this]
      exact ⟨rfl, rfl⟩
  · intro tr pk hlen
    have hb : ∀ pk', seqOf initState pk' + countReqOps pk' tr < U32 := by
      intro pk'
      have h1 : seqOf initState pk' = 0 := rfl
      have h2 := countReqOps_le_length pk' tr
      omega
    have h := (exec_master tr initState JInv_initState hb).2 pk
    have h0 : seqOf initState pk = 0 := rfl
    rw [h.2, h0]
    simp

/-- Concrete client key and first request used by the witnesses. -/
def rC : CompletionsReq := ⟨pk0, 0, ⟨⟨1⟩, sig64⟩⟩

theorem req_spec_witness :
    acceptedReqSeqs pk0 initState [Op.oreq rC] = [1] := by
  have h := req_spec.2 [Op.oreq rC] pk0 (by decide)
  rw [h]
  rfl

/-- C8: along any trace of fewer than `2^32` journal operations from the
initial state, every stored `PeerStatus` satisfies
`commit_seq ≤ seq`. -/
theorem commit_seq_le_seq_invariant (tr : List Op) (pk : PublicKey) (st : PeerStatus)
    (hlen : tr.length < U32)
    (hst : lookupA pk (execOps initState tr).status = some st) :
    st.commit_seq ≤ st.seq := by
  have hb : ∀ pk', seqOf initState pk' + countReqOps pk' tr < U32 := by
    intro pk'
    have h1 : seqOf initState pk' = 0 := rfl
    have h2 := countReqOps_le_length pk' tr
    omega
  have hinv := (exec_master tr initState JInv_initState hb).1
  exact ((hinv pk).2 st hst).2.1

theorem commit_seq_le_seq_invariant_witness :
    lookupA pk0 (execOps initState [Op.oreq rC]).status =
      some ⟨1, 0, RoundState.Requested⟩ ∧
    (⟨1, 0, RoundState.Requested⟩ : PeerStatus).commit_seq ≤
      (⟨1, 0, RoundState.Requested⟩ : PeerStatus).seq := by
  constructor
  · rfl
  · exact commit_seq_le_seq_invariant [Op.oreq rC] pk0 ⟨1, 0, RoundState.Requested⟩
      (by decide) (by rfl)

theorem readRounds_ok (s : JState) (pk : PublicKey) : ∀ (l : List Nat),
    (∀ q ∈ l, (lookupA (pk, q) s.history).isSome = true) →
    ∃ rds, MetadataCache.readRounds s pk l = some rds ∧ rds.length = l.length ∧
      ∀ (i q : Nat), l[i]? = some q → rds[i]? = lookupA (pk, q) s.history := by
  intro l
  induction l with
  | nil =>
      intro _
      exact ⟨[], rfl, rfl, fun i q h => by simp at h⟩
  | cons q0 qs ih =>
      intro hsome
      have h0 := hsome q0 (List.mem_cons_self _ _)
      cases hh : lookupA (pk, q0) s.history with
      | none => rw [hh] at h0; simp at h0
      | some rd0 =>
          obtain ⟨rds, he, hlen, hpt⟩ := ih (fun q hq => hsome q (List.mem_cons_of_mem _ hq))
          refine ⟨rd0 :: rds, ?_, by simp [hlen], ?_⟩
          · rw [MetadataCache.readRounds, hh, he]
          · intro i q hq
            cases i with
            | zero =>
                simp only [List.getElem?_cons_zero] at hq ⊢
                injection hq with hq
                rw [← hq, hh]
            | succ j =>
                simp only [List.getElem?_cons_succ] at hq ⊢
                exact hpt j q hq

theorem load_all_go_ok (s : JState) : ∀ (ks : List PublicKey),
    (∀ k ∈ ks, ∃ st, lookupA k s.status = some st ∧ st.commit_seq + 1 < U32 ∧
      ∀ q, st.commit_seq < q → q < st.seq → (lookupA (k, q) s.history).isSome = true) →
    ∃ out, MetadataCache.load_all_go s ks = some out ∧
      (∀ k, k ∉ ks → lookupA k out = none) ∧
      (∀ k ∈ ks, ∀ st, lookupA k s.status = some st →
        (st.seq ≤ st.commit_seq + 1 → lookupA k out = none) ∧
        (st.commit_seq + 1 < st.seq → ∃ rds, lookupA k out = some rds ∧
          rds.length = st.seq - (st.commit_seq + 1) ∧
          ∀ i : Nat, i < rds.length →
            rds[i]? = lookupA (k, st.commit_seq + 1 + i) s.history)) := by
  intro ks
  induction ks with
  | nil =>
      intro _
      exact ⟨[], rfl, fun k _ => rfl, fun k hk => absurd hk (by simp)⟩
  | cons k0 ks ih =>
      intro h
      obtain ⟨st0, hst0, hcs0, hrec0⟩ := h k0 (List.mem_cons_self _ _)
      obtain ⟨out, hout, hnone, hfacts⟩ := ih (fun k hk => h k (List.mem_cons_of_mem _ hk))
      have hcsmod : (st0.commit_seq + 1) % U32 = st0.commit_seq + 1 := Nat.mod_eq_of_lt hcs0
      obtain ⟨rds, hrds, hlen, hpt⟩ := readRounds_ok s k0
        (rustRange ((st0.commit_seq + 1) % U32) st0.seq)
        (fun q hq => by
          obtain ⟨ha, hb⟩ := (mem_rustRange _ _ q).mp hq
          rw [hcsmod] at ha
          exact hrec0 q (by omega) hb)
      have hlen' : rds.length = st0.seq - (st0.commit_seq + 1) := by
        rw [hlen, rustRange, List.length_range', hcsmod]
      have hstep : MetadataCache.load_all_go s (k0 :: ks) =
          (if rds.isEmpty then some out else some ((k0, rds) :: out)) := by
        rw [MetadataCache.load_all_go, hst0]
        simp only []
        rw [hrds, hout]
      by_cases hemp : rds.isEmpty
      · rw [if_pos hemp] at hstep
        have hrds0 : rds = [] := List.isEmpty_iff.mp hemp
        have hrange0 : st0.seq ≤ st0.commit_seq + 1 := by
          rw [hrds0] at hlen'
          simp at hlen'
          omega
        refine ⟨out, hstep, ?_, ?_⟩
        · intro k hk
          exact hnone k (fun hmem => hk (List.mem_cons_of_mem _ hmem))
        · intro k hk st hst
          rcases List.mem_cons.mp hk with hk0 | hks
          · subst hk0
            have hst' : st = st0 := by
              rw [hst0] at hst
              injection hst with h2
              exact h2.symm
            subst hst'
            by_cases hkin : k ∈ ks
            · exact hfacts k hkin st hst
            · exact ⟨fun _ => hnone k hkin, fun hlt => absurd hlt (by omega)⟩
          · exact hfacts k hks st hst
      · rw [if_neg hemp] at hstep
        have hrdsne : rds ≠ [] := fun h2 => hemp (by rw [h2]; rfl)
        have hrange1 : st0.commit_seq + 1 < st0.seq := by
          have : rds.length ≠ 0 := fun h2 => hrdsne (List.eq_nil_of_length_eq_zero h2)
          omega
        refine ⟨(k0, rds) :: out, hstep, ?_, ?_⟩
        · intro k hk
          have hk0 : ¬(k0 = k) := fun e => hk (by rw [← e]; exact List.mem_cons_self _ _)
          rw [lookupA, if_neg hk0]
          exact hnone k (fun hmem => hk (List.mem_cons_of_mem _ hmem))
        · intro k hk st hst
          by_cases hkk : k = k0
          · subst hkk
            have hst' : st = st0 := by
              rw [hst0] at hst
              injection hst with h2
              exact h2.symm
            subst hst'
            refine ⟨fun hle => absurd hle (by omega), fun _ => ⟨rds, ?_, hlen', ?_⟩⟩
            · rw [lookupA, if_pos rfl]
            · intro i hi
              have hq : (rustRange ((st.commit_seq + 1) % U32) st.seq)[i]? =
                  some (st.commit_seq + 1 + i) := by
                rw [rustRange, List.getElem?_range']
                · rw [hcsmod]
                  simp [Nat.add_comm]
                · rw [hcsmod]
                  omega
              exact hpt i (st.commit_seq + 1 + i) hq
          · have hlk : lookupA k ((k0, rds) :: out) = lookupA k out := by
              rw [lookupA, if_neg (fun e => hkk e.symm)]
            rcases List.mem_cons.mp hk with hk0 | hks
            · exact absurd hk0 hkk
            · rw [hlk]
              exact hfacts k hks st hst

/-- C5: under the record-presence preconditions (a status for every
registered key, no u32 wrap of `commit_seq + 1`, and a history record
for every `q` with `commit_seq < q < seq`), `load_all_history` succeeds
and returns, for every registered key, exactly the records with
sequence numbers in `(commit_seq, seq)` in increasing order, omitting
keys whose range holds no records (and unregistered keys). -/
theorem load_all_history_spec (s : JState)
    (h : ∀ k ∈ s.registry, ∃ st, lookupA k s.status = some st ∧ st.commit_seq + 1 < U32 ∧
      ∀ q, st.commit_seq < q → q < st.seq → (lookupA (k, q) s.history).isSome = true) :
    ∃ out, MetadataCache.load_all_history s = some out ∧
      (∀ k, k ∉ s.registry → lookupA k out = none) ∧
      ∀ k ∈ s.registry, ∀ st, lookupA k s.status = some st →
        (st.seq ≤ st.commit_seq + 1 → lookupA k out = none) ∧
        (st.commit_seq + 1 < st.seq → ∃ rds, lookupA k out = some rds ∧
          rds.length = st.seq - (st.commit_seq + 1) ∧
          ∀ i : Nat, i < rds.length →
            rds[i]? = lookupA (k, st.commit_seq + 1 + i) s.history) := by
  obtain ⟨out, hout, hnone, hfacts⟩ := load_all_go_ok s s.registry h
  exact ⟨out, hout, hnone, hfacts⟩

def cfC : ConfirmReq := ⟨pk0, ⟨⟨1, 10, 20⟩, sig64⟩⟩

def respA : CompletionsResp := ⟨⟨some ⟨10, 20⟩⟩⟩

def rdA : RoundData := ⟨1, rC, respA, some cfC⟩

def rdB : RoundData := ⟨2, rC, respA, some cfC⟩

def sC5 : JState :=
  ⟨[(pk0, ⟨3, 0, RoundState.Completed⟩)], [((pk0, 1), rdA), ((pk0, 2), rdB)], [pk0]⟩

theorem load_all_history_spec_witness :
    ∃ out, MetadataCache.load_all_history sC5 = some out ∧
      lookupA pk0 out = some [rdA, rdB] := by
  obtain ⟨out, h1, _, h3⟩ := load_all_history_spec sC5 (by
    intro k hk
    have hkpk : k = pk0 := by
      simpa [sC5] using hk
    subst hkpk
    refine ⟨⟨3, 0, RoundState.Completed⟩, rfl, by decide, ?_⟩
    intro q hq1 hq2
    have hq1' : 0 < q := hq1
    have hq2' : q < 3 := hq2
    have : q = 1 ∨ q = 2 := by omega
    rcases this with rfl | rfl
    · rfl
    · rfl)
  obtain ⟨rds, hl, hlen, hpt⟩ :=
    (h3 pk0 (by simp [sC5]) ⟨3, 0, RoundState.Completed⟩ rfl).2
      (by show (0 : Nat) + 1 < 3; omega)
  have hlen' : rds.length = 2 := by rw [hlen]; rfl
  have hrds : rds = [rdA, rdB] := by
    apply List.ext_getElem?
    intro n
    match n with
    | 0 =>
        rw [hpt 0 (by omega)]
        rfl
    | 1 =>
        rw [hpt 1 (by omega)]
        rfl
    | n + 2 =>
        rw [List.getElem?_eq_none (by omega), List.getElem?_eq_none (by simp)]
  rw [hrds] at hl
  exact ⟨out, h1, hl⟩

/-! ### The settlement loop's `Input` construction (`commit_handler`) -/

/-- One record's contribution to the prover input:
`filter(confirm_msg.is_some)` followed by
`Round { request: req.request, confirm: confirm_msg.unwrap().confirm }`. -/
def recordRound (rd : RoundData) : Option Round :=
  rd.confirm_msg.map (fun c => ⟨rd.req.request, c.confirm⟩)

/-- The per-client map of `commit_handler` building the prover input
from the `load_all_history` snapshot (empty filtered lists are kept,
exactly as in the source). -/
def toInputRounds (m : List (PublicKey × List RoundData)) : List (PublicKey × List Round) :=
  m.map (fun p => (p.1, p.2.filterMap recordRound))

def buildInput (m : List (PublicKey × List RoundData)) : Input := ⟨toInputRounds m⟩

theorem lookupA_toInputRounds (m : List (PublicKey × List RoundData)) (k : PublicKey) :
    lookupA k (toInputRounds m) = (lookupA k m).map (fun rds => rds.filterMap recordRound) := by
  induction m with
  | nil => rfl
  | cons p t ih =>
      by_cases hp : p.1 = k
      · simp [toInputRounds, lookupA, hp]
      · simp only [toInputRounds, List.map_cons, lookupA, hp, if_neg]
        exact ih

theorem readRounds_mem (s : JState) (pk : PublicKey) : ∀ (l : List Nat) (rds : List RoundData),
    MetadataCache.readRounds s pk l = some rds →
    ∀ rd ∈ rds, ∃ q ∈ l, lookupA (pk, q) s.history = some rd := by
  intro l
  induction l with
  | nil =>
      intro rds he rd hrd
      rw [MetadataCache.readRounds] at he
      injection he with he
      rw [← he] at hrd
      simp at hrd
  | cons q0 qs ih =>
      intro rds he rd hrd
      rw [MetadataCache.readRounds] at he
      cases hh : lookupA (pk, q0) s.history with
      | none => rw [hh] at he; exact absurd he (by simp)
      | some rd0 =>
          rw [hh] at he
          cases hrest : MetadataCache.readRounds s pk qs with
          | none => rw [hrest] at he; exact absurd he (by simp)
          | some rds' =>
              rw [hrest] at he
              injection he with he
              rw [← he] at hrd
              rcases List.mem_cons.mp hrd with hrd0 | hrdt
              · exact ⟨q0, List.mem_cons_self _ _, by rw [hh, hrd0]⟩
              · obtain ⟨q, hq, hlook⟩ := ih rds' hrest rd hrdt
                exact ⟨q, List.mem_cons_of_mem _ hq, hlook⟩

theorem load_all_go_entries (s : JState) : ∀ (ks : List PublicKey)
    (out : List (PublicKey × List RoundData)),
    MetadataCache.load_all_go s ks = some out →
    ∀ k rds, lookupA k out = some rds → rds ≠ [] ∧
      ∃ st, lookupA k s.status = some st ∧
        ∀ rd ∈ rds, ∃ q, q < st.seq ∧ lookupA (k, q) s.history = some rd := by
  intro ks
  induction ks with
  | nil =>
      intro out he k rds hl
      rw [MetadataCache.load_all_go] at he
      injection he with he
      rw [← he] at hl
      simp at hl
  | cons k0 ks ih =>
      intro out he k rds hl
      rw [MetadataCache.load_all_go] at he
      cases hst0 : lookupA k0 s.status with
      | none => rw [hst0] at he; exact absurd he (by simp)
      | some st0 =>
          rw [hst0] at he
          simp only [] at he
          cases hrr : MetadataCache.readRounds s k0
              (rustRange ((st0.commit_seq + 1) % U32) st0.seq) with
          | none => rw [hrr] at he; exact absurd he (by simp)
          | some rds0 =>
              rw [hrr] at he
              cases hrest : MetadataCache.load_all_go s ks with
              | none => rw [hrest] at he; exact absurd he (by simp)
              | some rest =>
                  rw [hrest] at he
                  simp only [] at he
                  by_cases hemp : rds0.isEmpty
                  · rw [if_pos hemp] at he
                    injection he with he
                    rw [← he] at hl
                    exact ih rest hrest k rds hl
                  · rw [if_neg hemp] at he
                    injection he with he
                    rw [← he] at hl
                    by_cases hk0 : k0 = k
                    · rw [lookupA, if_pos hk0] at hl
                      injection hl with hl
                      have hl' : rds0 = rds := hl
                      subst hl'
                      subst hk0
                      refine ⟨fun h2 => hemp (by rw [h2]; rfl), st0, hst0, ?_⟩
                      intro rd hrd
                      obtain ⟨q, hq, hlook⟩ := readRounds_mem s k0 _ rds0 hrr rd hrd
                      exact ⟨q, ((mem_rustRange _ _ q).mp hq).2, hlook⟩
                    · rw [lookupA, if_neg hk0] at hl
                      exact ih rest hrest k rds hl

theorem filterMap_recordRound_length : ∀ (rds : List RoundData),
    (∀ rd ∈ rds, rd.confirm_msg.isSome = true) →
    (rds.filterMap recordRound).length = rds.length := by
  intro rds
  induction rds with
  | nil => intro _; rfl
  | cons rd t ih =>
      intro h
      have hrd := h rd (List.mem_cons_self _ _)
      cases hc : rd.confirm_msg with
      | none => rw [hc] at hrd; simp at hrd
      | some c =>
          have : recordRound rd = some ⟨rd.req.request, c.confirm⟩ := by
            rw [recordRound, hc]
            rfl
          simp only [List.filterMap_cons, this, List.length_cons,
            ih (fun x hx => h x (List.mem_cons_of_mem _ hx))]

/-- C6: for any journal state reached by fewer than `2^32` operations
from the initial state, when `load_all_history` succeeds the prover
`Input` built by the settlement loop contains only non-empty round
lists, each list coming one-for-one from confirmed history records; a
client absent from the snapshot is absent from the `Input`. -/
theorem settlement_input_nonempty (tr : List Op) (hlen : tr.length < U32)
    (out : List (PublicKey × List RoundData))
    (hout : MetadataCache.load_all_history (execOps initState tr) = some out) :
    (∀ k l, lookupA k (buildInput out).rounds = some l →
      l ≠ [] ∧ ∃ rds, lookupA k out = some rds ∧ rds ≠ [] ∧
        (∀ rd ∈ rds, rd.confirm_msg.isSome = true) ∧ l = rds.filterMap recordRound ∧
        l.length = rds.length) ∧
    (∀ k, lookupA k out = none → lookupA k (buildInput out).rounds = none) := by
  have hb : ∀ pk', seqOf initState pk' + countReqOps pk' tr < U32 := by
    intro pk'
    have h1 : seqOf initState pk' = 0 := rfl
    have h2 := countReqOps_le_length pk' tr
    omega
  have hinv := (exec_master tr initState JInv_initState hb).1
  constructor
  · intro k l hl
    rw [buildInput] at hl
    simp only [] at hl
    rw [lookupA_toInputRounds] at hl
    cases hrds : lookupA k out with
    | none => rw [hrds] at hl; exact absurd hl (by simp)
    | some rds =>
        rw [hrds] at hl
        simp only [Option.map_some'] at hl
        injection hl with hl
        obtain ⟨hne, st, hst, hmem⟩ :=
          load_all_go_entries (execOps initState tr) (execOps initState tr).registry out hout
            k rds hrds
        have hconf : ∀ rd ∈ rds, rd.confirm_msg.isSome = true := by
          intro rd hrd
          obtain ⟨q, hq, hlook⟩ := hmem rd hrd
          have hglob := ((hinv k).2 st hst).2.2.2.1 q rd hlook
          rcases hglob with hcn | hqeq
          · cases hcm : rd.confirm_msg with
            | none => exact absurd hcm hcn
            | some c => rfl
          · omega
        have hlength : l.length = rds.length := by
          rw [← hl]
          exact filterMap_recordRound_length rds hconf
        refine ⟨?_, rds, rfl, hne, hconf, hl.symm, hlength⟩
        intro hl0
        rw [hl0] at hlength
        simp at hlength
        exact hne (List.eq_nil_of_length_eq_zero hlength.symm)
  · intro k hk
    rw [buildInput]
    simp only []
    rw [lookupA_toInputRounds, hk]
    rfl

def rC2 : CompletionsReq := ⟨pk0, 0, ⟨⟨2⟩, sig64⟩⟩

def trC6 : List Op := [Op.oreq rC, Op.oresp rC respA, Op.oconfirm cfC, Op.oreq rC2]

theorem settlement_input_nonempty_witness :
    MetadataCache.load_all_history (execOps initState trC6) = some [(pk0, [rdA])] ∧
    ∀ l, lookupA pk0 (buildInput [(pk0, [rdA])]).rounds = some l → l ≠ [] := by
  have hload : MetadataCache.load_all_history (execOps initState trC6) =
      some [(pk0, [rdA])] := by decide
  refine ⟨hload, fun l hl => ?_⟩
  exact ((settlement_input_nonempty trC6 (by decide) [(pk0, [rdA])] hload).1 pk0 l hl).1

theorem commitGo_append_fail : ∀ (l1 : List Claim) (s : JState) (l2 : List Claim),
    (MetadataCache.commitGo s l1).1 = false →
    MetadataCache.commitGo s (l1 ++ l2) = MetadataCache.commitGo s l1 := by
  intro l1
  induction l1 with
  | nil => intro s l2 h; simp [MetadataCache.commitGo] at h
  | cons c cs ih =>
      intro s l2 h
      rw [commitGo_cons] at h
      rw [List.cons_append, commitGo_cons, commitGo_cons]
      by_cases hc : (MetadataCache.commitClaim s c).1 = true
      · rw [if_pos hc] at h
        rw [if_pos hc, if_pos hc]
        exact ih _ _ h
      · rw [if_neg hc, if_neg hc]

theorem commitGo_true_prefix (l1 : List Claim) (s : JState) (l2 : List Claim) (s' : JState)
    (h : MetadataCache.commitGo s (l1 ++ l2) = (true, s')) :
    ∃ smid, MetadataCache.commitGo s l1 = (true, smid) ∧
      MetadataCache.commitGo smid l2 = (true, s') := by
  cases hfl : (MetadataCache.commitGo s l1).1 with
  | false =>
      rw [commitGo_append_fail l1 s l2 hfl] at h
      rw [h] at hfl
      exact absurd hfl (by simp)
  | true =>
      rw [commitGo_append_ok l1 s l2 hfl] at h
      refine ⟨(MetadataCache.commitGo s l1).2, ?_, h⟩
      have : MetadataCache.commitGo s l1 =
          ((MetadataCache.commitGo s l1).1, (MetadataCache.commitGo s l1).2) := rfl
      rw [this, hfl]

theorem commitClaim_true_facts (s : JState) (c : Claim) (s1 : JState)
    (h : MetadataCache.commitClaim s c = (true, s1)) :
    ∃ st, lookupA c.pk s.status = some st ∧
      (st.commit_seq + 1) % U32 = c.start_seq ∧
      (st.commit_seq + c.rounds) % U32 ≤ st.seq ∧
      lookupA c.pk s1.status = some ⟨st.seq, (st.commit_seq + c.rounds) % U32, st.state⟩ ∧
      (∀ pk', pk' ≠ c.pk → lookupA pk' s1.status = lookupA pk' s.status) := by
  rw [MetadataCache.commitClaim] at h
  by_cases hreg : c.pk ∈ s.registry
  · rw [if_pos hreg] at h
    cases hl : lookupA c.pk s.status with
    | none => rw [hl] at h; exact absurd h (by simp)
    | some st =>
        rw [hl] at h
        simp only [] at h
        by_cases hg : (st.commit_seq + 1) % U32 = c.start_seq ∧
            (st.commit_seq + c.rounds) % U32 ≤ st.seq
        · rw [if_pos hg] at h
          obtain ⟨hsub1, _, _⟩ := removeRounds_sub c.pk
            (rustRange c.start_seq ((c.start_seq + c.rounds) % U32))
            { s with status := updA c.pk ⟨st.seq, (st.commit_seq + c.rounds) % U32, st.state⟩ s.status }
          have hs1 : s1 = (MetadataCache.removeRounds
              { s with status := updA c.pk ⟨st.seq, (st.commit_seq + c.rounds) % U32, st.state⟩ s.status }
              c.pk (rustRange c.start_seq ((c.start_seq + c.rounds) % U32))).2 := by
            rw [h]
          refine ⟨st, rfl, hg.1, hg.2, ?_, ?_⟩
          · rw [hs1, hsub1]
            exact lookupA_updA_self _ _ _
          · intro pk' hne
            rw [hs1, hsub1]
            exact lookupA_updA_ne _ _ _ _ hne
        · rw [if_neg hg] at h
          exact absurd h (by simp)
  · rw [if_neg hreg] at h
    exact absurd h (by simp)

theorem commitGo_true_status_back : ∀ (claims : List Claim) (s s' : JState) (pk : PublicKey),
    MetadataCache.commitGo s claims = (true, s') →
    (lookupA pk s'.status).isSome = true → (lookupA pk s.status).isSome = true := by
  intro claims
  induction claims with
  | nil =>
      intro s s' pk h hs'
      rw [MetadataCache.commitGo] at h
      injection h with _ h2
      rw [h2]
      exact hs'
  | cons c cs ih =>
      intro s s' pk h hs'
      rw [commitGo_cons] at h
      by_cases hc : (MetadataCache.commitClaim s c).1 = true
      · rw [if_pos hc] at h
        have hcc : MetadataCache.commitClaim s c =
            (true, (MetadataCache.commitClaim s c).2) := by
          have : MetadataCache.commitClaim s c =
              ((MetadataCache.commitClaim s c).1, (MetadataCache.commitClaim s c).2) := rfl
          rw [this, hc]
        obtain ⟨st, hst, _, _, hst1, hne⟩ := commitClaim_true_facts s c _ hcc
        have hmid := ih _ _ pk h hs'
        by_cases hpk : pk = c.pk
        · subst hpk
          rw [hst]
          rfl
        · rw [hne pk hpk] at hmid
          exact hmid
      · rw [if_neg hc] at h
        rw [h] at hc
        exact absurd rfl hc

/-- C4: one claim inside `commit` requires the two guards
(`commit_seq + 1 = start_seq` and `seq ≥ commit_seq + rounds`, in u32
arithmetic); when they hold (and the covered history records exist, with
no u32 wrap of `start_seq + rounds`) it advances `commit_seq` by
`rounds` and deletes exactly the history records in
`[start_seq, start_seq + rounds)`, touching nothing else; when a guard
fails for a claim, the whole commit errors with that claim's key
untouched and the earlier claims' effects kept. -/
theorem commit_claim_spec :
    (∀ (s : JState) (c : Claim) (st : PeerStatus),
      c.pk ∈ s.registry →
      lookupA c.pk s.status = some st →
      (st.commit_seq + 1) % U32 = c.start_seq →
      (st.commit_seq + c.rounds) % U32 ≤ st.seq →
      c.start_seq + c.rounds < U32 →
      (∀ q, c.start_seq ≤ q → q < c.start_seq + c.rounds →
        (lookupA (c.pk, q) s.history).isSome = true) →
      ∃ s', MetadataCache.commitClaim s c = (true, s') ∧
        lookupA c.pk s'.status = some ⟨st.seq, (st.commit_seq + c.rounds) % U32, st.state⟩ ∧
        (∀ q, c.start_seq ≤ q → q < c.start_seq + c.rounds →
          lookupA (c.pk, q) s'.history = none) ∧
        (∀ q, q < c.start_seq ∨ c.start_seq + c.rounds ≤ q →
          lookupA (c.pk, q) s'.history = lookupA (c.pk, q) s.history) ∧
        (∀ pk', pk' ≠ c.pk → lookupA pk' s'.status = lookupA pk' s.status ∧
          ∀ q, lookupA (pk', q) s'.history = lookupA (pk', q) s.history) ∧
        s'.registry = s.registry) ∧
    (∀ (s : JState) (pre : List Claim) (c : Claim) (rest : List Claim) (s1 : JState)
      (st : PeerStatus),
      MetadataCache.commitGo s pre = (true, s1) →
      lookupA c.pk s1.status = some st →
      ¬((st.commit_seq + 1) % U32 = c.start_seq ∧ (st.commit_seq + c.rounds) % U32 ≤ st.seq) →
      MetadataCache.commit s (pre ++ c :: rest) = (false, s1)) := by
  constructor
  · intro s c st hreg hst hg1 hg2 hnw hrec
    obtain ⟨s', he, hr, hself, hne, hhist, hhist'⟩ :=
      commitClaim_ok s c st hreg hst hg1 hg2 hnw hrec
    refine ⟨s', he, hself, ?_, ?_, ?_, hr⟩
    · intro q hq1 hq2
      rw [hhist q, if_pos ⟨hq1, hq2⟩]
    · intro q hq
      rw [hhist q, if_neg (fun hc => by omega)]
    · intro pk' hpk'
      exact ⟨hne pk' hpk', hhist' pk' hpk'⟩
  · intro s pre c rest s1 st hpre hst hguards
    have hfail : MetadataCache.commitClaim s1 c = (false, s1) := by
      apply commitClaim_fail
      rintro ⟨_, st', hst', hg1, hg2⟩
      have : st' = st := by
        rw [hst] at hst'
        injection hst' with h2
        exact h2.symm
      subst this
      exact hguards ⟨hg1, hg2⟩
    have happ : MetadataCache.commitGo s (pre ++ c :: rest) =
        MetadataCache.commitGo s1 (c :: rest) := by
      have h2 := commitGo_append_ok pre s (c :: rest) (by rw [hpre])
      rw [hpre] at h2
      exact h2
    rw [MetadataCache.commit, happ, commitGo_cons, hfail]
    simp

def sC4 : JState :=
  ⟨[(pk0, ⟨2, 0, RoundState.Completed⟩)], [((pk0, 1), rdA), ((pk0, 2), rdB)], [pk0]⟩

def cC4 : Claim := ⟨pk0, 1, 2, 30⟩

theorem commit_claim_spec_witness :
    ∃ s', MetadataCache.commitClaim sC4 cC4 = (true, s') ∧
      lookupA pk0 s'.status = some ⟨2, 2, RoundState.Completed⟩ ∧
      lookupA (pk0, 1) s'.history = none ∧ lookupA (pk0, 2) s'.history = none := by
  obtain ⟨s', he, hself, hdel, _, _, _⟩ :=
    commit_claim_spec.1 sC4 cC4 ⟨2, 0, RoundState.Completed⟩ (by decide) rfl (by decide)
      (by decide) (by decide)
      (by
        intro q h1 h2
        have h1' : 1 ≤ q := h1
        have h2' : q < 3 := h2
        have : q = 1 ∨ q = 2 := by omega
        rcases this with rfl | rfl
        · rfl
        · rfl)
  refine ⟨s', he, hself, ?_, ?_⟩
  · exact hdel 1 (by decide) (by decide)
  · exact hdel 2 (by decide) (by decide)

/-- C10: a claim whose public key has no entry in the lock registry makes
`commit` error at that claim, leaving the state exactly as after the
claims before it (no commit_seq advance, no history deletion for it),
regardless of any status or history records on disk. -/
theorem commit_missing_lock_errors (s : JState) (pre : List Claim) (c : Claim)
    (rest : List Claim) (s1 : JState)
    (hpre : MetadataCache.commitGo s pre = (true, s1))
    (hreg : c.pk ∉ s.registry) :
    MetadataCache.commit s (pre ++ c :: rest) = (false, s1) ∧
    s1.registry = s.registry := by
  have hr1 : s1.registry = s.registry := by
    have h2 := commitGo_registry pre s
    rw [hpre] at h2
    exact h2
  have hfail : MetadataCache.commitClaim s1 c = (false, s1) := by
    apply commitClaim_fail
    rintro ⟨hm, _⟩
    rw [hr1] at hm
    exact hreg hm
  have happ : MetadataCache.commitGo s (pre ++ c :: rest) =
      MetadataCache.commitGo s1 (c :: rest) := by
    have h2 := commitGo_append_ok pre s (c :: rest) (by rw [hpre])
    rw [hpre] at h2
    exact h2
  rw [MetadataCache.commit, happ, commitGo_cons, hfail]
  simp
  exact hr1

def sC10 : JState :=
  ⟨[(pk0, ⟨2, 0, RoundState.Completed⟩)], [((pk0, 1), rdA), ((pk0, 2), rdB)], []⟩

theorem commit_missing_lock_errors_witness :
    MetadataCache.commit sC10 [cC4] = (false, sC10) := by
  have h := commit_missing_lock_errors sC10 [] cC4 [] sC10 rfl (by decide)
  simpa using h.1

theorem commitGo_true_cs_mono : ∀ (claims : List Claim) (s s' : JState),
    MetadataCache.commitGo s claims = (true, s') →
    (∀ c ∈ claims, 1 ≤ c.start_seq ∧ c.start_seq + c.rounds ≤ U32) →
    ∀ pk st0, lookupA pk s.status = some st0 → st0.commit_seq < U32 →
    ∃ st', lookupA pk s'.status = some st' ∧ st'.seq = st0.seq ∧ st'.state = st0.state ∧
      st0.commit_seq ≤ st'.commit_seq ∧ st'.commit_seq < U32 := by
  intro claims
  induction claims with
  | nil =>
      intro s s' h hb pk st0 hst0 hcs
      rw [MetadataCache.commitGo] at h
      injection h with _ h2
      subst h2
      exact ⟨st0, hst0, rfl, rfl, Nat.le_refl _, hcs⟩
  | cons c cs ih =>
      intro s s' h hb pk st0 hst0 hcs
      rw [commitGo_cons] at h
      by_cases hc : (MetadataCache.commitClaim s c).1 = true
      · rw [if_pos hc] at h
        have hcc : MetadataCache.commitClaim s c =
            (true, (MetadataCache.commitClaim s c).2) := by
          have h2 : MetadataCache.commitClaim s c =
              ((MetadataCache.commitClaim s c).1, (MetadataCache.commitClaim s c).2) := rfl
          rw [h2, hc]
        obtain ⟨stm, hstm, hg1, hg2, hst1, hne⟩ := commitClaim_true_facts s c _ hcc
        by_cases hpk : pk = c.pk
        · subst hpk
          have hstm' : st0 = stm := by
            rw [hst0] at hstm
            exact Option.some.inj hstm
          subst hstm'
          have hbc := hb c (List.mem_cons_self _ _)
          have hlt1 : st0.commit_seq + 1 < U32 := by
            rcases Nat.lt_or_ge (st0.commit_seq + 1) U32 with h2 | h2
            · exact h2
            · have h3 : st0.commit_seq + 1 = U32 := by omega
              rw [h3, Nat.mod_self] at hg1
              omega
          have hstart : c.start_seq = st0.commit_seq + 1 := by
            rw [← hg1, Nat.mod_eq_of_lt hlt1]
          have hnw : st0.commit_seq + c.rounds < U32 := by omega
          rw [Nat.mod_eq_of_lt hnw] at hst1
          obtain ⟨st', hst', he1, he2, he3, he4⟩ :=
            ih _ _ h (fun x hx => hb x (List.mem_cons_of_mem _ hx)) c.pk
              ⟨st0.seq, st0.commit_seq + c.rounds, st0.state⟩ hst1 hnw
          have he3' : st0.commit_seq + c.rounds ≤ st'.commit_seq := he3
          exact ⟨st', hst', he1, he2, by omega, he4⟩
        · rw [← hne pk hpk] at hst0
          exact ih _ _ h (fun x hx => hb x (List.mem_cons_of_mem _ hx)) pk st0 hst0 hcs
      · rw [if_neg hc] at h
        rw [h] at hc
        exact absurd rfl hc

theorem commitGo_noop : ∀ (claims : List Claim) (s' : JState),
    (∀ c ∈ claims, 1 ≤ c.start_seq ∧ c.start_seq + c.rounds ≤ U32) →
    (∀ pk st, lookupA pk s'.status = some st → st.commit_seq < U32) →
    (∀ c ∈ claims, ∀ st, lookupA c.pk s'.status = some st →
      (st.commit_seq + 1) % U32 = c.start_seq → c.rounds = 0) →
    (MetadataCache.commitGo s' claims).2 = s' := by
  intro claims
  induction claims with
  | nil => intro s' _ _ _; rfl
  | cons c cs ih =>
      intro s' hb hcs hng
      rw [commitGo_cons]
      by_cases hreg : c.pk ∈ s'.registry
      · cases hl : lookupA c.pk s'.status with
        | none =>
            have hf := commitClaim_fail s' c
              (fun ⟨_, st', hst', _⟩ => by rw [hl] at hst'; exact absurd hst' (by simp))
            rw [hf]
            simp
        | some st =>
            by_cases hg : (st.commit_seq + 1) % U32 = c.start_seq ∧
                (st.commit_seq + c.rounds) % U32 ≤ st.seq
            · have hr0 : c.rounds = 0 := hng c (List.mem_cons_self _ _) st hl hg.1
              have hcs' : st.commit_seq < U32 := hcs c.pk st hl
              have heq : MetadataCache.commitClaim s' c = (true, s') := by
                rw [MetadataCache.commitClaim, if_pos hreg, hl]
                simp only []
                rw [if_pos hg]
                have hm1 : (st.commit_seq + c.rounds) % U32 = st.commit_seq := by
                  rw [hr0, Nat.add_zero]
                  exact Nat.mod_eq_of_lt hcs'
                have hstartlt : c.start_seq < U32 := by
                  rw [← hg.1]
                  exact Nat.mod_lt _ (by decide)
                have hm2 : (c.start_seq + c.rounds) % U32 = c.start_seq := by
                  rw [hr0, Nat.add_zero]
                  exact Nat.mod_eq_of_lt hstartlt
                rw [hm1, hm2]
                have hupd : updA c.pk ⟨st.seq, st.commit_seq, st.state⟩ s'.status = s'.status := by
                  have heta : (⟨st.seq, st.commit_seq, st.state⟩ : PeerStatus) = st := rfl
                  rw [heta]
                  exact updA_self c.pk st s'.status hl
                rw [hupd]
                have hrange : rustRange c.start_seq c.start_seq = [] := by
                  rw [rustRange, Nat.sub_self]
                  rfl
                rw [hrange, MetadataCache.removeRounds]
              rw [heq]
              simp only [if_pos]
              exact ih s' (fun x hx => hb x (List.mem_cons_of_mem _ hx)) hcs
                (fun x hx => hng x (List.mem_cons_of_mem _ hx))
            · have hf := commitClaim_fail s' c
                (fun ⟨_, st', hst', hg1, hg2⟩ => by
                  have h2 : st' = st := by
                    rw [hl] at hst'
                    injection hst' with h3
                    exact h3.symm
                  subst h2
                  exact hg ⟨hg1, hg2⟩)
              rw [hf]
              simp
      · have hf := commitClaim_fail s' c (fun ⟨hm, _⟩ => hreg hm)
        rw [hf]
        simp

def sC7 : JState := ⟨[(pk0, ⟨1, 0, RoundState.Completed⟩)], [((pk0, 1), rdA)], [pk0]⟩

def c71 : Claim := ⟨pk0, 1, 1, 30⟩

def c72 : Claim := ⟨pk0, 2, U32 - 1, 0⟩

def sC7' : JState := ⟨[(pk0, ⟨1, 0, RoundState.Completed⟩)], [], [pk0]⟩

/-- C7 counterexample: the claim list `[c71, c72]` is accepted by a
first `commit` from `sC7` (the u32 commit_seq wraps back to its original
value), but a second `commit(claims)` from the resulting state errors
midway AFTER advancing `commit_seq`, so it neither reproduces the state
of a single application nor leaves the state unchanged. -/
theorem commit_idempotence_cex :
    MetadataCache.commit sC7 [c71, c72] = (true, sC7') ∧
    (MetadataCache.commit sC7' [c71, c72]).1 = false ∧
    (MetadataCache.commit sC7' [c71, c72]).2 ≠ sC7' := by
  refine ⟨by decide, by decide, by decide⟩

/-- C7 (amended): when no claim's u32 round accounting can overflow
(each claim has `1 ≤ start_seq` and `start_seq + rounds ≤ 2^32`, and
stored `commit_seq` values are u32), a second `commit(claims)` after an
accepted first one leaves the state exactly as after the first: it is
either a no-op success (all-zero-rounds claims) or a distinguishable
error with status and history untouched. -/
theorem commit_idempotent_no_overflow (s : JState) (claims : List Claim) (s' : JState)
    (hb : ∀ c ∈ claims, 1 ≤ c.start_seq ∧ c.start_seq + c.rounds ≤ U32)
    (hcs : ∀ pk st, lookupA pk s.status = some st → st.commit_seq < U32)
    (h1 : MetadataCache.commit s claims = (true, s')) :
    (MetadataCache.commit s' claims).2 = s' := by
  rw [MetadataCache.commit] at h1 ⊢
  have hcs' : ∀ pk st, lookupA pk s'.status = some st → st.commit_seq < U32 := by
    intro pk st hst
    have hback := commitGo_true_status_back claims s s' pk h1 (by rw [hst]; rfl)
    cases hst0 : lookupA pk s.status with
    | none => rw [hst0] at hback; simp at hback
    | some st0 =>
        obtain ⟨st'', hst'', _, _, _, hlt⟩ :=
          commitGo_true_cs_mono claims s s' h1 hb pk st0 hst0 (hcs pk st0 hst0)
        have h2 : st'' = st := by
          rw [hst] at hst''
          exact (Option.some.inj hst'').symm
        rw [← h2]
        exact hlt
  have hng : ∀ c ∈ claims, ∀ st, lookupA c.pk s'.status = some st →
      (st.commit_seq + 1) % U32 = c.start_seq → c.rounds = 0 := by
    intro c hc st hst hg1
    obtain ⟨pre, post, hsplit⟩ := List.append_of_mem hc
    rw [hsplit] at h1
    obtain ⟨smid, hpre, hrest⟩ := commitGo_true_prefix pre s _ s' h1
    rw [commitGo_cons] at hrest
    by_cases hfl : (MetadataCache.commitClaim smid c).1 = true
    · rw [if_pos hfl] at hrest
      have hccm : MetadataCache.commitClaim smid c =
          (true, (MetadataCache.commitClaim smid c).2) := by
        have h2 : MetadataCache.commitClaim smid c =
            ((MetadataCache.commitClaim smid c).1, (MetadataCache.commitClaim smid c).2) := rfl
        rw [h2, hfl]
      obtain ⟨stm, hstm, hgm1, hgm2, hstc, _⟩ := commitClaim_true_facts smid c _ hccm
      have hbpre : ∀ x ∈ pre, 1 ≤ x.start_seq ∧ x.start_seq + x.rounds ≤ U32 := by
        intro x hx
        exact hb x (by rw [hsplit]; exact List.mem_append.mpr (Or.inl hx))
      have hbpost : ∀ x ∈ post, 1 ≤ x.start_seq ∧ x.start_seq + x.rounds ≤ U32 := by
        intro x hx
        exact hb x (by
          rw [hsplit]
          exact List.mem_append.mpr (Or.inr (List.mem_cons_of_mem _ hx)))
      have hbackm := commitGo_true_status_back pre s smid c.pk hpre (by rw [hstm]; rfl)
      cases hst0 : lookupA c.pk s.status with
      | none => rw [hst0] at hbackm; simp at hbackm
      | some st0 =>
          obtain ⟨stm', hstm', _, _, _, hcsm⟩ :=
            commitGo_true_cs_mono pre s smid hpre hbpre c.pk st0 hst0 (hcs c.pk st0 hst0)
          have hmm : stm' = stm := by
            rw [hstm] at hstm'
            exact (Option.some.inj hstm').symm
          rw [hmm] at hcsm
          have hbc := hb c hc
          have hlt1 : stm.commit_seq + 1 < U32 := by
            rcases Nat.lt_or_ge (stm.commit_seq + 1) U32 with h2 | h2
            · exact h2
            · have h3 : stm.commit_seq + 1 = U32 := by omega
              rw [h3, Nat.mod_self] at hgm1
              omega
          have hstart : c.start_seq = stm.commit_seq + 1 := by
            rw [← hgm1, Nat.mod_eq_of_lt hlt1]
          have hnw : stm.commit_seq + c.rounds < U32 := by omega
          rw [Nat.mod_eq_of_lt hnw] at hstc
          obtain ⟨stf, hstf, _, _, hge, hfl2⟩ :=
            commitGo_true_cs_mono post _ s' hrest hbpost c.pk
              ⟨stm.seq, stm.commit_seq + c.rounds, stm.state⟩ hstc hnw
          have hff : stf = st := by
            rw [hst] at hstf
            exact (Option.some.inj hstf).symm
          subst hff
          have hge' : stm.commit_seq + c.rounds ≤ stf.commit_seq := hge
          rcases Nat.lt_or_ge (stf.commit_seq + 1) U32 with hlt2 | hge2
          · rw [Nat.mod_eq_of_lt hlt2] at hg1
            omega
          · have h3 : stf.commit_seq + 1 = U32 := by omega
            rw [h3, Nat.mod_self] at hg1
            omega
    · rw [if_neg hfl] at hrest
      rw [hrest] at hfl
      exact absurd rfl hfl
  exact commitGo_noop claims s' hb hcs' hng

theorem commit_idempotent_no_overflow_witness :
    MetadataCache.commit sC4 [cC4] = (true,
      ⟨[(pk0, ⟨2, 2, RoundState.Completed⟩)], [], [pk0]⟩) ∧
    (MetadataCache.commit ⟨[(pk0, ⟨2, 2, RoundState.Completed⟩)], [], [pk0]⟩ [cC4]).2 =
      ⟨[(pk0, ⟨2, 2, RoundState.Completed⟩)], [], [pk0]⟩ := by
  have hfirst : MetadataCache.commit sC4 [cC4] = (true,
      ⟨[(pk0, ⟨2, 2, RoundState.Completed⟩)], [], [pk0]⟩) := by decide
  refine ⟨hfirst, ?_⟩
  apply commit_idempotent_no_overflow sC4 [cC4] _
    (by
      intro c hc
      have h2 : c = cC4 := by simpa using hc
      subst h2
      exact ⟨by decide, by decide⟩)
    (by
      intro pk st hst
      have h2 : st = ⟨2, 0, RoundState.Completed⟩ := by
        by_cases hpk : pk = pk0
        · subst hpk
          have : lookupA pk0 sC4.status = some ⟨2, 0, RoundState.Completed⟩ := rfl
          rw [this] at hst
          exact (Option.some.inj hst).symm
        · have hpk' : ¬(pk0 = pk) := fun e => hpk e.symm
          have : lookupA pk sC4.status = none := by
            simp [sC4, lookupA, hpk']
          rw [this] at hst
          exact absurd hst (by simp)
      subst h2
      decide)
    hfirst

/-! ### The `completions/confirm` HTTP handler (`main.rs`) -/

/-- Gateway state seen by the confirm handler: the journal plus the
relaxed atomic `accumulated_tokens` counter (a u64). -/
structure GWState where
  js : JState
  accumulated : Nat
  deriving DecidableEq, Repr

/-- `completions_confirm`: signature verification, `load_round`, `usage`
extraction, the two under-report guards, `journal.confirm`, and the
wrapping u64 `fetch_add` of `input_tokens + resp_tokens`.  The boolean is
the HTTP outcome (false = 500). -/
def completions_confirm (V : PublicKey → List Nat → List Nat → Bool)
    (pkValid : PublicKey → Bool) (s : GWState) (r : ConfirmReq) : Bool × GWState :=
  if pkValid r.pk = true ∧ r.confirm.signature.length = 64 ∧
      V r.pk (confirmMsgBytes r.confirm.msg) r.confirm.signature = true then
    match MetadataCache.load_round s.js r.pk r.confirm.msg.seq with
    | (none, js1) => (false, ⟨js1, s.accumulated⟩)
    | (some rd, js1) =>
        match rd.resp.raw_response.usage with
        | none => (false, ⟨js1, s.accumulated⟩)
        | some u =>
            if u.prompt_tokens ≤ r.confirm.msg.input_tokens ∧
                u.completion_tokens ≤ r.confirm.msg.resp_tokens then
              match MetadataCache.confirm js1 r with
              | (true, js2) =>
                  (true, ⟨js2,
                    (s.accumulated + (r.confirm.msg.input_tokens + r.confirm.msg.resp_tokens))
                      % U64⟩)
              | (false, js2) => (false, ⟨js2, s.accumulated⟩)
            else
              (false, ⟨js1, s.accumulated⟩)
  else
    (false, s)

/-- C9: whenever the round's backend usage record is under-reported by
the confirm message (`input_tokens < prompt_tokens` or
`resp_tokens < completion_tokens`), the handler rejects the call and
leaves status, history, and the token accumulator untouched (so a round
in `WaitingConfirm` stays there); whenever the handler succeeds,
both inequalities held and `accumulated_tokens` is incremented by
exactly `input_tokens + resp_tokens` in u64 arithmetic. -/
theorem completions_confirm_spec (V : PublicKey → List Nat → List Nat → Bool)
    (pkValid : PublicKey → Bool) (s : GWState) (r : ConfirmReq) (rd : RoundData) (u : Usage)
    (hrd : lookupA (r.pk, r.confirm.msg.seq) s.js.history = some rd)
    (hu : rd.resp.raw_response.usage = some u) :
    ((r.confirm.msg.input_tokens < u.prompt_tokens ∨
        r.confirm.msg.resp_tokens < u.completion_tokens) →
      (completions_confirm V pkValid s r).1 = false ∧
      (completions_confirm V pkValid s r).2.js.status = s.js.status ∧
      (completions_confirm V pkValid s r).2.js.history = s.js.history ∧
      (completions_confirm V pkValid s r).2.accumulated = s.accumulated) ∧
    ((completions_confirm V pkValid s r).1 = true →
      u.prompt_tokens ≤ r.confirm.msg.input_tokens ∧
      u.completion_tokens ≤ r.confirm.msg.resp_tokens ∧
      (completions_confirm V pkValid s r).2.accumulated =
        (s.accumulated + (r.confirm.msg.input_tokens + r.confirm.msg.resp_tokens)) % U64) := by
  rw [completions_confirm]
  by_cases hsig : pkValid r.pk = true ∧ r.confirm.signature.length = 64 ∧
      V r.pk (confirmMsgBytes r.confirm.msg) r.confirm.signature = true
  · rw [if_pos hsig]
    have hload : MetadataCache.load_round s.js r.pk r.confirm.msg.seq =
        (some rd, { s.js with registry := insertKey r.pk s.js.registry }) := by
      rw [MetadataCache.load_round, hrd]
    rw [hload]
    simp only [hu]
    by_cases htok : u.prompt_tokens ≤ r.confirm.msg.input_tokens ∧
        u.completion_tokens ≤ r.confirm.msg.resp_tokens
    · rw [if_pos htok]
      constructor
      · intro hunder
        rcases hunder with h2 | h2
        · omega
        · omega
      · intro hok
        revert hok
        cases he : MetadataCache.confirm { s.js with registry := insertKey r.pk s.js.registry } r with
        | mk fl js2 =>
            cases fl
            · intro hok
              exact Bool.noConfusion hok
            · intro _
              exact ⟨htok.1, htok.2, rfl⟩
    · rw [if_neg htok]
      refine ⟨fun _ => ⟨rfl, rfl, rfl, rfl⟩, fun hok => absurd hok (by simp)⟩
  · rw [if_neg hsig]
    exact ⟨fun _ => ⟨rfl, rfl, rfl, rfl⟩, fun hok => absurd hok (by simp)⟩

def rdW : RoundData := ⟨1, rC, respA, none⟩

def gwS : GWState :=
  ⟨⟨[(pk0, ⟨1, 0, RoundState.WaitingConfirm⟩)], [((pk0, 1), rdW)], [pk0]⟩, 0⟩

def cfUnder : ConfirmReq := ⟨pk0, ⟨⟨1, 9, 20⟩, sig64⟩⟩

theorem completions_confirm_spec_witness :
    (completions_confirm vTrue pkvTrue gwS cfUnder).1 = false ∧
    (completions_confirm vTrue pkvTrue gwS cfUnder).2.js.status = gwS.js.status ∧
    (completions_confirm vTrue pkvTrue gwS cfUnder).2.js.history = gwS.js.history ∧
    (completions_confirm vTrue pkvTrue gwS cfUnder).2.accumulated = 0 := by
  have h := completions_confirm_spec vTrue pkvTrue gwS cfUnder rdW ⟨10, 20⟩ rfl rfl
  have h2 := h.1 (Or.inl (by decide))
  exact ⟨h2.1, h2.2.1, h2.2.2.1, h2.2.2.2⟩
